import Mathlib

/-!
# binman: repository directory, core manager facade and ferry client

A shallow embedding of

* `manager/repos.go`   (the repository directory kept in a bolt bucket),
* `ferryd/core/api.go` (the core `Manager` facade),
* `libferry/main.go`   (the HTTP client of the daemon),

together with the parts of the Go standard library the code relies on
(`unicode/utf8`, `encoding/json`) and of `boltdb/bolt` (one bucket, `Get`,
`Put`, `Delete`, `ForEach`, `Update`, `View`).

Go strings and byte slices are arbitrary byte sequences, so they are modelled
as lists of bytes, never as Lean strings.
-/

namespace Binman

/-! ## Bytes -/

/-- A Go `byte`. -/
abbrev Byte := Fin 256

/-- A Go `string` or `[]byte`: any sequence of bytes, valid UTF-8 or not. -/
abbrev Bytes := List Byte

/-- The Go conversion `byte(n)`: truncation to eight bits. -/
def byte (n : Nat) : Byte := ⟨n % 256, Nat.mod_lt n (by decide)⟩

/-- The bytes of an ASCII string literal of the Go source. -/
def ascii (s : String) : Bytes := s.toList.map (fun c => byte c.toNat)

/-! ## unicode/utf8 -/

/-- The rune `utf8.RuneError` (U+FFFD). -/
def RuneError : Nat := 0xFFFD

/-- The size information of the table `first` of `unicode/utf8`, indexed by the
lead byte: `1` for ASCII, `2`, `3`, `4` for the lead bytes of longer
sequences, and `0` for the entries marked `xx` (invalid lead byte). -/
def firstSize (p0 : Nat) : Nat :=
  if p0 < 0x80 then 1
  else if p0 < 0xC2 then 0
  else if p0 < 0xE0 then 2
  else if p0 < 0xF0 then 3
  else if p0 < 0xF5 then 4
  else 0

/-- Lowest second byte accepted after lead byte `p0` (`acceptRanges[..].lo`). -/
def acceptLo (p0 : Nat) : Nat :=
  if p0 = 0xE0 then 0xA0 else if p0 = 0xF0 then 0x90 else 0x80

/-- Highest second byte accepted after lead byte `p0` (`acceptRanges[..].hi`). -/
def acceptHi (p0 : Nat) : Nat :=
  if p0 = 0xED then 0x9F else if p0 = 0xF4 then 0x8F else 0xBF

/-- The function `utf8.DecodeRune`: the first rune of `p` and its width in bytes.
An empty input gives `(RuneError, 0)`, an invalid encoding `(RuneError, 1)`.
The masks and shifts of the Go code are written with `%`, `*` and `+`:
`(p0 & 0x1F) << 6 | (b1 & 0x3F)` is `(p0 % 32) * 64 + b1 % 64`, and so on. -/
def decodeRune (p : Bytes) : Nat × Nat :=
  match p with
  | [] => (RuneError, 0)
  | p0 :: rest =>
    let sz := firstSize p0.val
    if sz = 1 then (p0.val, 1)
    else if sz = 0 then (RuneError, 1)
    else if rest.length + 1 < sz then (RuneError, 1)
    else
      match rest with
      | [] => (RuneError, 1)
      | b1 :: rest1 =>
        if b1.val < acceptLo p0.val ∨ acceptHi p0.val < b1.val then (RuneError, 1)
        else if sz = 2 then ((p0.val % 32) * 64 + b1.val % 64, 2)
        else
          match rest1 with
          | [] => (RuneError, 1)
          | b2 :: rest2 =>
            if b2.val < 0x80 ∨ 0xBF < b2.val then (RuneError, 1)
            else if sz = 3 then
              ((p0.val % 16) * 4096 + (b1.val % 64) * 64 + b2.val % 64, 3)
            else
              match rest2 with
              | [] => (RuneError, 1)
              | b3 :: _ =>
                if b3.val < 0x80 ∨ 0xBF < b3.val then (RuneError, 1)
                else
                  ((p0.val % 8) * 262144 + (b1.val % 64) * 4096 + (b2.val % 64) * 64
                    + b3.val % 64, 4)

/-- The function `utf8.EncodeRune`, returning the bytes written. Runes above
`utf8.MaxRune` and surrogates are written as `RuneError`. `0xC0 | byte(r>>6)`
is written `0xC0 + r / 64`, and `0x80 | byte(r)&0x3F` is `0x80 + r % 64`. -/
def encodeRune (r : Nat) : Bytes :=
  if r ≤ 0x7F then [byte r]
  else if r ≤ 0x7FF then [byte (0xC0 + r / 64), byte (0x80 + r % 64)]
  else if 0x10FFFF < r ∨ (0xD800 ≤ r ∧ r ≤ 0xDFFF) then [0xEF, 0xBF, 0xBD]
  else if r ≤ 0xFFFF then
    [byte (0xE0 + r / 4096), byte (0x80 + (r / 64) % 64), byte (0x80 + r % 64)]
  else
    [byte (0xF0 + r / 262144), byte (0x80 + (r / 4096) % 64), byte (0x80 + (r / 64) % 64),
      byte (0x80 + r % 64)]

/-- The loop of `utf8.Valid` / `utf8.ValidString`: every rune decodes without
the `(RuneError, 1)` result. The fuel bounds the number of runes. -/
def validLoop : Nat → Bytes → Bool
  | 0, s => s.isEmpty
  | _ + 1, [] => true
  | fuel + 1, b :: rest =>
    let d := decodeRune (b :: rest)
    if d.1 = RuneError ∧ d.2 = 1 then false
    else validLoop fuel (rest.drop (d.2 - 1))

/-- The function `utf8.ValidString`. -/
def validString (s : Bytes) : Bool := validLoop s.length s

/-! ## encoding/json: encoding -/

/-- The table `hex = "0123456789abcdef"` of `encoding/json`. -/
def hexDigit (n : Nat) : Byte :=
  if n < 10 then byte (0x30 + n) else byte (0x61 + (n - 10))

/-- What `encodeState.string` writes for one ASCII byte `b` (HTML escaping is
on, as it is for `json.NewEncoder`). -/
def encodeAscii (b : Byte) : Bytes :=
  if 0x20 ≤ b.val ∧ b.val ≠ 0x5C ∧ b.val ≠ 0x22 ∧ b.val ≠ 0x3C ∧ b.val ≠ 0x3E ∧ b.val ≠ 0x26 then
    [b]
  else if b.val = 0x5C ∨ b.val = 0x22 then [0x5C, b]
  else if b.val = 0x0A then [0x5C, 0x6E]
  else if b.val = 0x0D then [0x5C, 0x72]
  else if b.val = 0x09 then [0x5C, 0x74]
  else [0x5C, 0x75, 0x30, 0x30, hexDigit (b.val / 16), hexDigit (b.val % 16)]

/-- The loop of `encodeState.string` over the bytes of `s`, without the two
surrounding quotes. Each iteration consumes one rune of the input; the fuel
bounds the number of iterations (`len(s)` is enough). -/
def encodeStringLoop : Nat → Bytes → Bytes
  | 0, _ => []
  | _ + 1, [] => []
  | fuel + 1, b :: rest =>
    if b.val < 0x80 then encodeAscii b ++ encodeStringLoop fuel rest
    else
      let d := decodeRune (b :: rest)
      if d.1 = RuneError ∧ d.2 = 1 then
        [0x5C, 0x75, 0x66, 0x66, 0x66, 0x64] ++ encodeStringLoop fuel rest
      else if d.1 = 0x2028 ∨ d.1 = 0x2029 then
        [0x5C, 0x75, 0x32, 0x30, 0x32, hexDigit (d.1 % 16)]
          ++ encodeStringLoop fuel (rest.drop (d.2 - 1))
      else (b :: rest).take d.2 ++ encodeStringLoop fuel (rest.drop (d.2 - 1))

/-- The function `encodeState.string`: `s` as a quoted JSON string. -/
def encodeString (s : Bytes) : Bytes :=
  [0x22] ++ encodeStringLoop s.length s ++ [0x22]

/-! ## encoding/json: decoding

`json.Unmarshal` first validates the whole input with its scanner and then
decodes it; `Decoder.Decode` does the same for the first value of a stream.
Both are modelled by a recursive-descent reader that produces the syntax tree of
the value (with string literals already unquoted), from which the target struct
is filled. A syntax error anywhere makes the reader fail, as the scanner does.
-/

/-- A JSON value as read by `encoding/json`. String literals hold the bytes
that `unquote` returns; number literals are kept as written. -/
inductive JValue where
  | null : JValue
  | bool (b : Bool) : JValue
  | number (lit : Bytes) : JValue
  | str (s : Bytes) : JValue
  | array (items : List JValue) : JValue
  | object (members : List (Bytes × JValue)) : JValue

/-- The function `isSpace` of the scanner: space, tab, carriage return, newline. -/
def isSpace (b : Byte) : Bool :=
  b.val = 0x20 || b.val = 0x09 || b.val = 0x0D || b.val = 0x0A

/-- Skip the white space the scanner ignores between tokens. -/
def skipSpace : Bytes → Bytes
  | [] => []
  | b :: rest => if isSpace b then skipSpace rest else b :: rest

/-- The value of a hexadecimal digit (either case), as `strconv.ParseUint(s, 16, 64)`
reads it. -/
def hexVal (b : Byte) : Option Nat :=
  if 0x30 ≤ b.val ∧ b.val ≤ 0x39 then some (b.val - 0x30)
  else if 0x61 ≤ b.val ∧ b.val ≤ 0x66 then some (b.val - 0x61 + 10)
  else if 0x41 ≤ b.val ∧ b.val ≤ 0x46 then some (b.val - 0x41 + 10)
  else none

/-- The function `getu4`: the code unit of a leading `\uXXXX` escape, or `none`
(Go returns `-1`) when the input does not start with one. -/
def getu4 : Bytes → Option Nat
  | b0 :: b1 :: h0 :: h1 :: h2 :: h3 :: _ =>
    if b0.val = 0x5C ∧ b1.val = 0x75 then
      match hexVal h0, hexVal h1, hexVal h2, hexVal h3 with
      | some a, some b, some c, some d => some (a * 4096 + b * 256 + c * 16 + d)
      | _, _, _, _ => none
    else none
  | _ => none

/-- The function `utf16.IsSurrogate`. -/
def isSurrogate (r : Nat) : Bool := 0xD800 ≤ r && r < 0xE000

/-- The function `utf16.DecodeRune`: the rune of a surrogate pair, or U+FFFD
when the pair is not valid. The second argument is `none` for Go's `-1`. -/
def utf16DecodeRune (r1 : Nat) (r2 : Option Nat) : Nat :=
  match r2 with
  | some r2 =>
    if 0xD800 ≤ r1 ∧ r1 < 0xDC00 ∧ 0xDC00 ≤ r2 ∧ r2 < 0xE000 then
      (r1 - 0xD800) * 1024 + (r2 - 0xDC00) + 0x10000
    else RuneError
  | none => RuneError

/-- The byte a two-character escape stands for (`\"`, `\\`, `\/`, `\b`, `\f`,
`\n`, `\r`, `\t`); `none` for any other character, which the scanner rejects. -/
def unescape (e : Byte) : Option Byte :=
  if e.val = 0x22 ∨ e.val = 0x5C ∨ e.val = 0x2F then some e
  else if e.val = 0x62 then some 0x08
  else if e.val = 0x66 then some 0x0C
  else if e.val = 0x6E then some 0x0A
  else if e.val = 0x72 then some 0x0D
  else if e.val = 0x74 then some 0x09
  else none

/-- Read a string literal after its opening quote: the scanner states
`stateInString`, `stateInStringEsc`, `stateInStringEscU..` together with the
loop of `unquoteBytes`. `acc` is the output buffer. Returns the unquoted bytes
and the input after the closing quote; `none` is a syntax error (control
character, bad escape, or no closing quote). Bytes that are not valid UTF-8 are
coerced to U+FFFD, as `unquoteBytes` does. (The first loop of `unquoteBytes`,
which returns the literal itself when it needs no unquoting, gives the same
bytes as this loop and is not modelled apart.) One step consumes at least one
byte, so fuel `len(s)` is enough. -/
def readString : Nat → Bytes → Bytes → Option (Bytes × Bytes)
  | 0, _, _ => none
  | _ + 1, [], _ => none
  | fuel + 1, c :: rest, acc =>
    if c.val = 0x22 then some (acc, rest)
    else if c.val = 0x5C then
      match rest with
      | [] => none
      | e :: rest1 =>
        if e.val = 0x75 then
          match getu4 (c :: rest) with
          | none => none
          | some rr =>
            let rest2 := rest1.drop 4
            if isSurrogate rr then
              let dec := utf16DecodeRune rr (getu4 rest2)
              if dec ≠ RuneError then readString fuel (rest2.drop 6) (acc ++ encodeRune dec)
              else readString fuel rest2 (acc ++ encodeRune RuneError)
            else readString fuel rest2 (acc ++ encodeRune rr)
        else
          match unescape e with
          | some b => readString fuel rest1 (acc ++ [b])
          | none => none
    else if c.val < 0x20 then none
    else if c.val < 0x80 then readString fuel rest (acc ++ [c])
    else
      let d := decodeRune (c :: rest)
      readString fuel (rest.drop (d.2 - 1)) (acc ++ encodeRune d.1)

/-- Whether `b` is an ASCII digit. -/
def isDigit (b : Byte) : Bool := 0x30 ≤ b.val && b.val ≤ 0x39

/-- The longest run of digits at the start of the input, and what follows. -/
def takeDigits : Bytes → Bytes × Bytes
  | [] => ([], [])
  | b :: rest =>
    if isDigit b then ((b :: (takeDigits rest).1), (takeDigits rest).2) else ([], b :: rest)

/-- The integer part of a number (scanner states `stateNeg`, `state0`, `state1`):
a single `0`, or a digit `1`..`9` followed by digits. -/
def readInt : Bytes → Option (Bytes × Bytes)
  | [] => none
  | b :: rest =>
    if b.val = 0x30 then some ([b], rest)
    else if isDigit b then some (b :: (takeDigits rest).1, (takeDigits rest).2)
    else none

/-- The optional fraction of a number (`stateDot`, `stateDot0`): a dot must be
followed by at least one digit. -/
def readFrac : Bytes → Option (Bytes × Bytes)
  | [] => some ([], [])
  | b :: rest =>
    if b.val = 0x2E then
      match takeDigits rest with
      | ([], _) => none
      | (d, rest1) => some (b :: d, rest1)
    else some ([], b :: rest)

/-- The optional exponent of a number (`stateE`, `stateESign`, `stateE0`): `e`
or `E`, an optional sign, and at least one digit. -/
def readExp : Bytes → Option (Bytes × Bytes)
  | [] => some ([], [])
  | b :: rest =>
    if b.val = 0x65 ∨ b.val = 0x45 then
      match rest with
      | [] => none
      | s :: rest1 =>
        if s.val = 0x2B ∨ s.val = 0x2D then
          match takeDigits rest1 with
          | ([], _) => none
          | (d, rest2) => some (b :: s :: d, rest2)
        else
          match takeDigits rest with
          | ([], _) => none
          | (d, rest2) => some (b :: d, rest2)
    else some ([], b :: rest)

/-- A number literal: optional minus, integer part, fraction, exponent. -/
def readNumber (s : Bytes) : Option (Bytes × Bytes) :=
  let signed : Bytes × Bytes :=
    match s with
    | [] => ([], [])
    | b :: rest => if b.val = 0x2D then ([b], rest) else ([], b :: rest)
  match readInt signed.2 with
  | none => none
  | some (i, s2) =>
    match readFrac s2 with
    | none => none
    | some (f, s3) =>
      match readExp s3 with
      | none => none
      | some (e, s4) => some (signed.1 ++ i ++ f ++ e, s4)

/-- Consume the bytes `lit` from the front of the input, if they are there. -/
def expectBytes : Bytes → Bytes → Option Bytes
  | [], s => some s
  | _ :: _, [] => none
  | l :: lit, b :: rest => if l = b then expectBytes lit rest else none

mutual

/-- Read one JSON value (`stateBeginValue` onward), skipping leading white
space. Returns the value and the rest of the input; `none` is a syntax
error. The fuel bounds the recursion; `2 * len(s) + 2` is enough, since two
nested calls consume at least one byte. -/
def readValue : Nat → Bytes → Option (JValue × Bytes)
  | 0, _ => none
  | fuel + 1, s =>
    match skipSpace s with
    | [] => none
    | c :: rest =>
      if c.val = 0x7B then
        match skipSpace rest with
        | [] => none
        | c1 :: rest1 =>
          if c1.val = 0x7D then some (JValue.object [], rest1)
          else
            match readMembers fuel (c1 :: rest1) with
            | some (ms, rest2) => some (JValue.object ms, rest2)
            | none => none
      else if c.val = 0x5B then
        match skipSpace rest with
        | [] => none
        | c1 :: rest1 =>
          if c1.val = 0x5D then some (JValue.array [], rest1)
          else
            match readElements fuel (c1 :: rest1) with
            | some (vs, rest2) => some (JValue.array vs, rest2)
            | none => none
      else if c.val = 0x22 then
        match readString rest.length rest [] with
        | some (str, rest1) => some (JValue.str str, rest1)
        | none => none
      else if c.val = 0x74 then
        match expectBytes [0x72, 0x75, 0x65] rest with
        | some rest1 => some (JValue.bool true, rest1)
        | none => none
      else if c.val = 0x66 then
        match expectBytes [0x61, 0x6C, 0x73, 0x65] rest with
        | some rest1 => some (JValue.bool false, rest1)
        | none => none
      else if c.val = 0x6E then
        match expectBytes [0x75, 0x6C, 0x6C] rest with
        | some rest1 => some (JValue.null, rest1)
        | none => none
      else
        match readNumber (c :: rest) with
        | some (lit, rest1) => some (JValue.number lit, rest1)
        | none => none

/-- Read the elements of a non-empty array up to and including the closing
bracket: a value, then a comma and more elements, or the bracket. -/
def readElements : Nat → Bytes → Option (List JValue × Bytes)
  | 0, _ => none
  | fuel + 1, s =>
    match readValue fuel s with
    | none => none
    | some (v, rest) =>
      match skipSpace rest with
      | [] => none
      | c :: rest1 =>
        if c.val = 0x5D then some ([v], rest1)
        else if c.val = 0x2C then
          match readElements fuel rest1 with
          | some (vs, rest2) => some (v :: vs, rest2)
          | none => none
        else none

/-- Read the members of a non-empty object up to and including the closing
brace: a string key, a colon, a value, then a comma and more members, or the
brace. -/
def readMembers : Nat → Bytes → Option (List (Bytes × JValue) × Bytes)
  | 0, _ => none
  | fuel + 1, s =>
    match skipSpace s with
    | [] => none
    | q :: rest =>
      if q.val = 0x22 then
        match readString rest.length rest [] with
        | none => none
        | some (key, rest1) =>
          match skipSpace rest1 with
          | [] => none
          | c :: rest2 =>
            if c.val = 0x3A then
              match readValue fuel rest2 with
              | none => none
              | some (v, rest3) =>
                match skipSpace rest3 with
                | [] => none
                | c1 :: rest4 =>
                  if c1.val = 0x7D then some ([(key, v)], rest4)
                  else if c1.val = 0x2C then
                    match readMembers fuel rest4 with
                    | some (ms, rest5) => some ((key, v) :: ms, rest5)
                    | none => none
                  else none
            else none
      else none

end

/-- The syntax tree of a complete JSON text, as `json.Unmarshal` requires it:
one value, with nothing but white space after it. `none` is a `*SyntaxError`. -/
def readDocument (data : Bytes) : Option JValue :=
  match readValue (2 * data.length + 2) data with
  | none => none
  | some (v, rest) => if (skipSpace rest).isEmpty then some v else none

/-- The first value of a stream, as `Decoder.Decode` reads it: what follows the
value is left in the stream. `none` is a syntax error (or an empty stream). -/
def readFirstValue (data : Bytes) : Option JValue :=
  match readValue (2 * data.length + 2) data with
  | none => none
  | some (v, _) => some v

/-- The mask `caseMask = ^byte(0x20)` of `encoding/json/fold.go` applied to `b`. -/
def caseMask (b : Byte) : Nat := b.val &&& 0xDF

/-- The function `simpleLetterEqualFold`: ASCII letters compared without case. -/
def simpleLetterEqualFold : Bytes → Bytes → Bool
  | [], [] => true
  | b :: s, c :: t => caseMask b = caseMask c && simpleLetterEqualFold s t
  | _, _ => false

/-- The function `equalFoldRight`: as above, but `t` may also hold the Kelvin
sign (U+212A) for `k` and the long s (U+017F) for `s`. The field name `s` is
ASCII. -/
def equalFoldRight : Bytes → Bytes → Bool
  | [], t => t.isEmpty
  | _ :: _, [] => false
  | sb :: s, tb :: t =>
    if tb.val < 0x80 then
      if sb ≠ tb then
        if 0x41 ≤ caseMask sb ∧ caseMask sb ≤ 0x5A then
          if caseMask sb ≠ caseMask tb then false else equalFoldRight s t
        else false
      else equalFoldRight s t
    else
      let d := decodeRune (tb :: t)
      if sb.val = 0x73 ∨ sb.val = 0x53 then
        if d.1 ≠ 0x17F then false else equalFoldRight s (t.drop (d.2 - 1))
      else if sb.val = 0x6B ∨ sb.val = 0x4B then
        if d.1 ≠ 0x212A then false else equalFoldRight s (t.drop (d.2 - 1))
      else false

/-- The field loop of `decodeState.object`: the index of the struct field the
object key `key` selects, if any. `fields` lists each field name with the fold
function `foldFunc` picks for it; an exact match wins at once, otherwise the
first field matching under its fold function is taken. `i` is the index of the
head of `fields`, `f` the field found so far. -/
def findField : List (Bytes × (Bytes → Bytes → Bool)) → Bytes → Nat → Option Nat → Option Nat
  | [], _, _, f => f
  | (name, fold) :: rest, key, i, f =>
    if key = name then some i
    else if f.isNone && fold name key then findField rest key (i + 1) (some i)
    else findField rest key (i + 1) f

/-! ## Errors -/

/-- The Go error values that occur. Values of different constructors are
different errors (`==` on Go errors compares dynamic type and pointer). -/
inductive Error where
  /-- Modelled from the spec: the sentinel `ErrResourceExists` ("resource
  already exists"), declared in a file of package `manager` that is not at hand. -/
  | ErrResourceExists : Error
  /-- Modelled from the spec: the sentinel `ErrUnknownResource` ("unknown
  resource"), declared in a file of package `manager` that is not at hand. -/
  | ErrUnknownResource : Error
  /-- The error `bolt.ErrKeyRequired`. -/
  | ErrKeyRequired : Error
  /-- The error `bolt.ErrKeyTooLarge`. -/
  | ErrKeyTooLarge : Error
  /-- The error `bolt.ErrValueTooLarge`. -/
  | ErrValueTooLarge : Error
  /-- A `*json.SyntaxError` (message and offset are not modelled). -/
  | SyntaxError : Error
  /-- A `*json.UnmarshalTypeError` for a JSON value of the given kind. -/
  | UnmarshalTypeError (value : String) : Error
  /-- The error made by `errors.New(msg)` or `fmt.Errorf(msg)`: its `Error()` is `msg`. -/
  | errorString (msg : Bytes) : Error
  /-- Any other error of a collaborator (I/O, transport, ...), told apart by a tag. -/
  | other (tag : Nat) : Error
  deriving DecidableEq

/-- The errors of `json.Unmarshal` are `SyntaxError` and `UnmarshalTypeError`. -/
def Error.isJson : Error → Bool
  | Error.SyntaxError => true
  | Error.UnmarshalTypeError _ => true
  | _ => false

/-- The method `saveError` of the JSON decoder: only the first error is kept. -/
def saveError (saved : Option Error) (err : Error) : Option Error :=
  match saved with
  | none => some err
  | some e => some e

/-- The name `encoding/json` reports for the kind of a JSON value in an
`UnmarshalTypeError`. -/
def JValue.kind : JValue → String
  | JValue.null => "null"
  | JValue.bool _ => "bool"
  | JValue.number _ => "number"
  | JValue.str _ => "string"
  | JValue.array _ => "array"
  | JValue.object _ => "object"

/-! ## package manager: the repository directory (`manager/repos.go`) -/

/-- The struct `Repository`: the base unit of storage. -/
structure Repository where
  Name : Bytes
  deriving DecidableEq

/-- The fields of `Repository` as `encoding/json` sees them: `Name`, all
letters and none of them `k` or `s`, hence compared by `simpleLetterEqualFold`. -/
def Repository.fields : List (Bytes × (Bytes → Bytes → Bool)) :=
  [(ascii "Name", simpleLetterEqualFold)]

/-- One member of a JSON object decoded into a `*Repository` (the loop body of
`decodeState.object`): a key selecting `Name` sets the field from a string,
leaves it alone for `null`, and records an `UnmarshalTypeError` for any other
value; other keys are skipped. -/
def Repository.setMember (acc : Repository × Option Error) (m : Bytes × JValue) :
    Repository × Option Error :=
  match findField Repository.fields m.1 0 none with
  | some 0 =>
    match m.2 with
    | JValue.str s => ({ Name := s }, acc.2)
    | JValue.null => acc
    | v => (acc.1, saveError acc.2 (Error.UnmarshalTypeError v.kind))
  | _ => acc

/-- The call `json.Unmarshal(data, repo)` for `repo *Repository`: the updated
struct and the error. -/
def jsonUnmarshal (data : Bytes) (repo : Repository) : Repository × Option Error :=
  match readDocument data with
  | none => (repo, some Error.SyntaxError)
  | some (JValue.object ms) => ms.foldl Repository.setMember (repo, none)
  | some JValue.null => (repo, none)
  | some v => (repo, some (Error.UnmarshalTypeError v.kind))

/-- The call `enc.Encode(repo)` of a `json.Encoder` writing to an empty buffer:
the buffer contents (the object with its one field, then a newline) and the
error, which is always nil for this struct type. -/
def jsonEncode (repo : Repository) : Bytes × Option Error :=
  (ascii "\x7b\"Name\":" ++ encodeString repo.Name ++ ascii "\x7d\n", none)

/-- The bolt constant `MaxKeySize`. -/
def MaxKeySize : Nat := 32768

/-- The bolt constant `MaxValueSize`. -/
def MaxValueSize : Nat := 2147483646

/-- The order of keys in a bucket: `bytes.Compare(a, b) < 0`. -/
def keyLess : Bytes → Bytes → Bool
  | [], [] => false
  | [], _ :: _ => true
  | _ :: _, [] => false
  | a :: s, b :: t => a.val < b.val || (a = b && keyLess s t)

/-- The contents of a bolt bucket that holds no nested bucket: its key/value
pairs in cursor order. -/
abbrev Bucket := List (Bytes × Bytes)

/-- The state of the database as far as the code reads or writes it: the bucket
`BucketNameRepos`, which exists once the database is set up. -/
structure Store where
  repos : Bucket
  deriving DecidableEq

/-- A bucket as bolt keeps it: keys strictly ascending, hence unique. -/
def Bucket.WF (b : Bucket) : Prop := b.Pairwise (fun x y => keyLess x.1 y.1 = true)

/-- A well-formed database state. -/
def Store.WF (db : Store) : Prop := db.repos.WF

instance (b : Bucket) : Decidable b.WF := by
  unfold Bucket.WF
  infer_instance

instance (db : Store) : Decidable db.WF := by
  unfold Store.WF
  infer_instance

/-- The keys of a bucket, in cursor order. -/
def Bucket.keys (b : Bucket) : List Bytes := b.map Prod.fst

/-- The cursor operation `seek`: the first pair whose key is not below `key`. -/
def Bucket.seek : Bucket → Bytes → Option (Bytes × Bytes)
  | [], _ => none
  | (k, v) :: rest, key => if keyLess k key then Bucket.seek rest key else some (k, v)

/-- The method `Bucket.Get`: the value under `key`, or `none` (Go: nil) when the
key is absent. -/
def Bucket.Get (b : Bucket) (key : Bytes) : Option Bytes :=
  match b.seek key with
  | some (k, v) => if k = key then some v else none
  | none => none

/-- The node operation `put`: replace the value at `key`, or insert the pair at
the position the cursor found. -/
def Bucket.insert : Bucket → Bytes → Bytes → Bucket
  | [], key, value => [(key, value)]
  | (k, v) :: rest, key, value =>
    if keyLess k key then (k, v) :: Bucket.insert rest key value
    else if k = key then (key, value) :: rest
    else (key, value) :: (k, v) :: rest

/-- The method `Bucket.Put` in a writable transaction: the error and the bucket
afterwards. -/
def Bucket.Put (b : Bucket) (key value : Bytes) : Option Error × Bucket :=
  if key.length = 0 then (some Error.ErrKeyRequired, b)
  else if key.length > MaxKeySize then (some Error.ErrKeyTooLarge, b)
  else if value.length > MaxValueSize then (some Error.ErrValueTooLarge, b)
  else (none, b.insert key value)

/-- The node operation `del`: remove the pair at `key`, if there is one. -/
def Bucket.erase : Bucket → Bytes → Bucket
  | [], _ => []
  | (k, v) :: rest, key =>
    if keyLess k key then (k, v) :: Bucket.erase rest key
    else if k = key then rest
    else (k, v) :: rest

/-- The method `Bucket.Delete` in a writable transaction: always nil for a
bucket without nested buckets. -/
def Bucket.Delete (b : Bucket) (key : Bytes) : Option Error × Bucket :=
  (none, b.erase key)

/-- The method `Bucket.ForEach`: call `fn` on every pair in cursor order,
stopping at the first error. The state `σ` stands for the variables the Go
closure captures. -/
def Bucket.ForEach {σ : Type} (fn : Bytes → Bytes → σ → Option Error × σ) :
    Bucket → σ → Option Error × σ
  | [], st => (none, st)
  | (k, v) :: rest, st =>
    match fn k v st with
    | (some err, st1) => (some err, st1)
    | (none, st1) => Bucket.ForEach fn rest st1

/-- The method `DB.Update` on an open, writable database whose commit succeeds:
`fn` runs on the transaction; its writes are committed when it returns nil and
rolled back otherwise. -/
def DB.Update (db : Store) (fn : Store → Option Error × Store) : Option Error × Store :=
  match fn db with
  | (none, tx) => (none, tx)
  | (some err, _) => (some err, db)

/-- The method `DB.View` on an open database: `fn` runs on a read-only snapshot
and can only change the variables it captures (`σ`); the database stays as it
was. -/
def DB.View {σ : Type} (db : Store) (fn : Store → Option Error × σ) :
    (Option Error × σ) × Store :=
  (fn db, db)

/-- The method `Manager.CreateRepo` of package `manager`: the error returned
and the database afterwards. -/
def Manager.CreateRepo (db : Store) (name : Bytes) : Option Error × Store :=
  let repo : Repository := { Name := name }
  match jsonEncode repo with
  | (_, some err) => (some err, db)
  | (buf, none) =>
    let nom := name
    DB.Update db (fun tx =>
      if (Bucket.Get tx.repos nom).isSome then (some Error.ErrResourceExists, tx)
      else
        match Bucket.Put tx.repos nom buf with
        | (err, b) => (err, { tx with repos := b }))

/-- The method `Manager.ListRepos`: the names, the error, and the database
afterwards. -/
def Manager.ListRepos (db : Store) : (List Bytes × Option Error) × Store :=
  match DB.View db (fun tx =>
      Bucket.ForEach (fun k _ (repos : List Bytes) => (none, repos ++ [k])) tx.repos []) with
  | ((some err, _), db1) => (([], some err), db1)
  | ((none, repos), db1) => ((repos, none), db1)

/-- The method `Manager.RemoveRepo`: the error and the database afterwards. -/
def Manager.RemoveRepo (db : Store) (name : Bytes) : Option Error × Store :=
  DB.Update db (fun tx =>
    let nom := name
    if (Bucket.Get tx.repos nom).isNone then (some Error.ErrUnknownResource, tx)
    else
      match Bucket.Delete tx.repos nom with
      | (err, b) => (err, { tx with repos := b }))

/-- The method `Manager.GetRepo`: the repository pointer (`none` for nil), the
error, and the database afterwards. -/
def Manager.GetRepo (db : Store) (name : Bytes) : (Option Repository × Option Error) × Store :=
  let repo : Repository := { Name := [] }
  let nom := name
  match DB.View db (fun tx =>
      match Bucket.Get tx.repos nom with
      | none => (some Error.ErrUnknownResource, repo)
      | some blob =>
        match jsonUnmarshal blob repo with
        | (repo1, err) => (err, repo1)) with
  | ((some err, _), db1) => ((none, some err), db1)
  | ((none, repo1), db1) => ((some repo1, none), db1)

/-- The database right after set-up: the repository bucket exists and is empty. -/
def Store.empty : Store := { repos := [] }

/-- A call of one of the two mutating operations of the directory. -/
inductive Op where
  | create (name : Bytes) : Op
  | remove (name : Bytes) : Op
  deriving DecidableEq

/-- The database after one call. -/
def Op.apply (db : Store) : Op → Store
  | Op.create name => (Manager.CreateRepo db name).2
  | Op.remove name => (Manager.RemoveRepo db name).2

/-- The database reached from the empty one by a sequence of calls. -/
def run (ops : List Op) : Store := ops.foldl Op.apply Store.empty

/-- The repository bucket viewed as a partial map from names to records. -/
def Store.toMap (db : Store) : Bytes → Option Bytes :=
  fun key => (db.repos.find? (fun e => e.1 = key)).map Prod.snd

/-- Reference definition of `remove(name)` on the bucket viewed as a map, after
the words of the specification: `NotFound` and no change when `name` is absent,
otherwise success and the map without `name`. -/
def removeSpec (m : Bytes → Option Bytes) (name : Bytes) :
    Option Error × (Bytes → Option Bytes) :=
  match m name with
  | none => (some Error.ErrUnknownResource, m)
  | some _ => (none, fun key => if key = name then none else m key)

/-! ## package core: the manager facade (`ferryd/core/api.go`)

The repository manager `m.repo` and the methods of `*Repository` are in files
that are not at hand. They are parameters of the model: `σ` is the state they
work on (database, pool, file system), `ρ` the type of `*Repository` values,
`μ` the type of `*libeopkg.MetaPackage` values and `δ` the type of
`*DeltaInformation` values. -/

namespace Core

/-- The operations the facade forwards to. Each takes the state and returns its
Go results and the state afterwards; `GetRepo` is documented in `api.go` as a
read-only operation and returns no new state. -/
structure Collaborators (σ ρ μ δ : Type) where
  /-- The call `m.repo.CreateRepo(m.db, id)`. -/
  CreateRepo : Bytes → σ → (ρ × Option Error) × σ
  /-- The call `m.repo.GetRepo(m.db, id)`. -/
  GetRepo : Bytes → σ → ρ × Option Error
  /-- The call `repo.Index(m.db, m.pool)`. -/
  Index : ρ → σ → Option Error × σ
  /-- The call `repo.GetPackageNames(m.db)`. -/
  GetPackageNames : ρ → σ → (List Bytes × Option Error) × σ
  /-- The call `repo.GetPackages(m.db, m.pool, pkgName)`. -/
  GetPackages : ρ → Bytes → σ → (List μ × Option Error) × σ
  /-- The call `repo.CreateDelta(m.db, oldPkg, newPkg)`. -/
  CreateDelta : ρ → μ → μ → σ → (Bytes × Option Error) × σ
  /-- The call `repo.HasDelta(m.db, pkgID, deltaPath)`. -/
  HasDelta : ρ → Bytes → Bytes → σ → (Bool × Option Error) × σ
  /-- The call `repo.AddDelta(m.db, m.pool, deltaPath, mapping)`. -/
  AddDelta : ρ → Bytes → δ → σ → Option Error × σ

/-- A call the facade makes to one of its collaborators, with its arguments. -/
inductive Call (ρ μ δ : Type) where
  | CreateRepo (id : Bytes) : Call ρ μ δ
  | GetRepo (id : Bytes) : Call ρ μ δ
  | Index (repo : ρ) : Call ρ μ δ
  | GetPackageNames (repo : ρ) : Call ρ μ δ
  | GetPackages (repo : ρ) (pkgName : Bytes) : Call ρ μ δ
  | CreateDelta (repo : ρ) (oldPkg newPkg : μ) : Call ρ μ δ
  | HasDelta (repo : ρ) (pkgID deltaPath : Bytes) : Call ρ μ δ
  | AddDelta (repo : ρ) (deltaPath : Bytes) (mapping : δ) : Call ρ μ δ
  | AddPackages (repo : ρ) (packages : List Bytes) : Call ρ μ δ

/-- The state the collaborators work on, and the calls made so far, oldest first. -/
structure World (σ ρ μ δ : Type) where
  state : σ
  calls : List (Call ρ μ δ)

variable {σ ρ μ δ : Type}

/-- The method `Manager.GetRepo` of package `core`. -/
def Manager.GetRepo (c : Collaborators σ ρ μ δ) (id : Bytes) (w : World σ ρ μ δ) :
    (ρ × Option Error) × World σ ρ μ δ :=
  (c.GetRepo id w.state, { state := w.state, calls := w.calls ++ [Call.GetRepo id] })

/-- The method `Manager.Index`. -/
def Manager.Index (c : Collaborators σ ρ μ δ) (repoID : Bytes) (w : World σ ρ μ δ) :
    Option Error × World σ ρ μ δ :=
  match Manager.GetRepo c repoID w with
  | ((_, some err), w1) => (some err, w1)
  | ((repo, none), w1) =>
    match c.Index repo w1.state with
    | (err, st) => (err, { state := st, calls := w1.calls ++ [Call.Index repo] })

/-- The method `Manager.CreateRepo` of package `core`. -/
def Manager.CreateRepo (c : Collaborators σ ρ μ δ) (id : Bytes) (w : World σ ρ μ δ) :
    Option Error × World σ ρ μ δ :=
  match c.CreateRepo id w.state with
  | ((_, some err), st) => (some err, { state := st, calls := w.calls ++ [Call.CreateRepo id] })
  | ((_, none), st) =>
    Manager.Index c id { state := st, calls := w.calls ++ [Call.CreateRepo id] }

/-- The method `Manager.AddPackages`: after resolving the repository it returns
the fixed error; the call of `repo.AddPackages` and of `m.Index` is commented
out in the source. -/
def Manager.AddPackages (c : Collaborators σ ρ μ δ) (repoID : Bytes) (_packages : List Bytes)
    (w : World σ ρ μ δ) : Option Error × World σ ρ μ δ :=
  match Manager.GetRepo c repoID w with
  | ((_, some err), w1) => (some err, w1)
  | ((_, none), w1) => (some (Error.errorString (ascii "not yet ported")), w1)

/-- The method `Manager.GetPackageNames`. -/
def Manager.GetPackageNames (c : Collaborators σ ρ μ δ) (repoID : Bytes) (w : World σ ρ μ δ) :
    (List Bytes × Option Error) × World σ ρ μ δ :=
  match Manager.GetRepo c repoID w with
  | ((_, some err), w1) => (([], some err), w1)
  | ((repo, none), w1) =>
    match c.GetPackageNames repo w1.state with
    | (res, st) => (res, { state := st, calls := w1.calls ++ [Call.GetPackageNames repo] })

/-- The method `Manager.GetPackages`. -/
def Manager.GetPackages (c : Collaborators σ ρ μ δ) (repoID pkgName : Bytes)
    (w : World σ ρ μ δ) : (List μ × Option Error) × World σ ρ μ δ :=
  match Manager.GetRepo c repoID w with
  | ((_, some err), w1) => (([], some err), w1)
  | ((repo, none), w1) =>
    match c.GetPackages repo pkgName w1.state with
    | (res, st) => (res, { state := st, calls := w1.calls ++ [Call.GetPackages repo pkgName] })

/-- The method `Manager.CreateDelta`. -/
def Manager.CreateDelta (c : Collaborators σ ρ μ δ) (repoID : Bytes) (oldPkg newPkg : μ)
    (w : World σ ρ μ δ) : (Bytes × Option Error) × World σ ρ μ δ :=
  match Manager.GetRepo c repoID w with
  | ((_, some err), w1) => (([], some err), w1)
  | ((repo, none), w1) =>
    match c.CreateDelta repo oldPkg newPkg w1.state with
    | (res, st) =>
      (res, { state := st, calls := w1.calls ++ [Call.CreateDelta repo oldPkg newPkg] })

/-- The method `Manager.HasDelta`. -/
def Manager.HasDelta (c : Collaborators σ ρ μ δ) (repoID pkgID deltaPath : Bytes)
    (w : World σ ρ μ δ) : (Bool × Option Error) × World σ ρ μ δ :=
  match Manager.GetRepo c repoID w with
  | ((_, some err), w1) => ((false, some err), w1)
  | ((repo, none), w1) =>
    match c.HasDelta repo pkgID deltaPath w1.state with
    | (res, st) =>
      (res, { state := st, calls := w1.calls ++ [Call.HasDelta repo pkgID deltaPath] })

/-- The method `Manager.AddDelta`. -/
def Manager.AddDelta (c : Collaborators σ ρ μ δ) (repoID deltaPath : Bytes) (mapping : δ)
    (w : World σ ρ μ δ) : Option Error × World σ ρ μ δ :=
  match Manager.GetRepo c repoID w with
  | ((_, some err), w1) => (some err, w1)
  | ((repo, none), w1) =>
    match c.AddDelta repo deltaPath mapping w1.state with
    | (err, st) =>
      (err, { state := st, calls := w1.calls ++ [Call.AddDelta repo deltaPath mapping] })

/-- Collaborators for examples: the directory of package `manager` on a `Store`,
a repository pointer that is nil or a `Repository`, and repository operations
that fail with the error of tag `7` and change nothing. -/
def sample : Collaborators Store (Option Repository) Unit Unit where
  CreateRepo := fun id db =>
    match Binman.Manager.CreateRepo db id with
    | (some err, db1) => ((none, some err), db1)
    | (none, db1) => ((some { Name := id }, none), db1)
  GetRepo := fun id db => (Binman.Manager.GetRepo db id).1
  Index := fun _ db => (some (Error.other 7), db)
  GetPackageNames := fun _ db => (([], some (Error.other 7)), db)
  GetPackages := fun _ _ db => (([], some (Error.other 7)), db)
  CreateDelta := fun _ _ _ db => (([], some (Error.other 7)), db)
  HasDelta := fun _ _ _ db => ((false, some (Error.other 7)), db)
  AddDelta := fun _ _ _ db => (some (Error.other 7), db)

end Core

/-! ## package libferry: the client (`libferry/main.go`) -/

namespace Libferry

/-- The fields of an `*http.Response` the client reads: `ContentLength` (`-1`
when the length is unknown) and the bytes of the body. -/
structure HttpResponse where
  ContentLength : Int
  Body : Bytes
  deriving DecidableEq

/-- Modelled from the spec: the type `Response` of package `libferry`, declared
in a file that is not at hand: the envelope `{ error: bool, errorString: string }`
with the Go fields `Error` and `ErrorString` that `getBasicResponse` reads. -/
structure Response where
  Error : Bool
  ErrorString : Bytes
  deriving DecidableEq

/-- Modelled from the spec: the type `VersionRequest` of package `libferry`,
declared in a file that is not at hand: `{ version: string }` with the Go field
`Version` that `GetVersion` reads. -/
structure VersionRequest where
  Version : Bytes
  deriving DecidableEq

/-- A `Client`: its `*http.Client`, given by what `client.Get(url)` returns, a
response or a transport error. -/
structure Client where
  client : Bytes → Except Binman.Error HttpResponse

/-- The fields of `Response` as `encoding/json` sees them; `ErrorString` holds
an `S` and is compared by `equalFoldRight`. -/
def Response.fields : List (Bytes × (Bytes → Bytes → Bool)) :=
  [(ascii "Error", simpleLetterEqualFold), (ascii "ErrorString", equalFoldRight)]

/-- One member of a JSON object decoded into a `*Response`. -/
def Response.setMember (acc : Response × Option Binman.Error) (m : Bytes × JValue) :
    Response × Option Binman.Error :=
  match findField Response.fields m.1 0 none with
  | some 0 =>
    match m.2 with
    | JValue.bool b => ({ Error := b, ErrorString := acc.1.ErrorString }, acc.2)
    | JValue.null => acc
    | v => (acc.1, saveError acc.2 (Binman.Error.UnmarshalTypeError v.kind))
  | some 1 =>
    match m.2 with
    | JValue.str s => ({ Error := acc.1.Error, ErrorString := s }, acc.2)
    | JValue.null => acc
    | v => (acc.1, saveError acc.2 (Binman.Error.UnmarshalTypeError v.kind))
  | _ => acc

/-- The call `json.NewDecoder(body).Decode(outT)` for `outT *Response` on a
fresh decoder: the updated struct and the error. -/
def Response.decode (body : Bytes) (outT : Response) : Response × Option Binman.Error :=
  match readFirstValue body with
  | none => (outT, some Binman.Error.SyntaxError)
  | some (JValue.object ms) => ms.foldl Response.setMember (outT, none)
  | some JValue.null => (outT, none)
  | some v => (outT, some (Binman.Error.UnmarshalTypeError v.kind))

/-- The fields of `VersionRequest` as `encoding/json` sees them. -/
def VersionRequest.fields : List (Bytes × (Bytes → Bytes → Bool)) :=
  [(ascii "Version", equalFoldRight)]

/-- One member of a JSON object decoded into a `*VersionRequest`. -/
def VersionRequest.setMember (acc : VersionRequest × Option Binman.Error)
    (m : Bytes × JValue) : VersionRequest × Option Binman.Error :=
  match findField VersionRequest.fields m.1 0 none with
  | some 0 =>
    match m.2 with
    | JValue.str s => ({ Version := s }, acc.2)
    | JValue.null => acc
    | v => (acc.1, saveError acc.2 (Binman.Error.UnmarshalTypeError v.kind))
  | _ => acc

/-- The call `json.NewDecoder(body).Decode(&vq)` for `vq VersionRequest`. -/
def VersionRequest.decode (body : Bytes) (vq : VersionRequest) :
    VersionRequest × Option Binman.Error :=
  match readFirstValue body with
  | none => (vq, some Binman.Error.SyntaxError)
  | some (JValue.object ms) => ms.foldl VersionRequest.setMember (vq, none)
  | some JValue.null => (vq, none)
  | some v => (vq, some (Binman.Error.UnmarshalTypeError v.kind))

/-- The method `Client.formURI`: `fmt.Sprintf("http://localhost.localdomain:0/%s", part)`. -/
def Client.formURI (_c : Client) (part : Bytes) : Bytes :=
  ascii "http://localhost.localdomain:0/" ++ part

/-- What a client method gives back: its Go error, the struct it decoded into,
and the URLs it requested, in order. -/
structure Outcome (α : Type) where
  err : Option Binman.Error
  out : α
  requested : List Bytes

/-- The method `Client.GetVersion`: the version string, the error, and the URL
requested. -/
def Client.GetVersion (c : Client) : Outcome Bytes :=
  let vq : VersionRequest := { Version := [] }
  let uri := c.formURI (ascii "api/v1/version")
  match c.client uri with
  | Except.error e => { err := some e, out := [], requested := [uri] }
  | Except.ok resp =>
    match VersionRequest.decode resp.Body vq with
    | (_, some e) => { err := some e, out := [], requested := [uri] }
    | (vq1, none) => { err := none, out := vq1.Version, requested := [uri] }

/-- The method `Client.getBasicResponse` for `outT *Response`: the body is
decoded only when `resp.ContentLength > 0`. -/
def Client.getBasicResponse (c : Client) (url : Bytes) (outT : Response) : Outcome Response :=
  match c.client url with
  | Except.error e => { err := some e, out := outT, requested := [url] }
  | Except.ok resp =>
    let dec : Response × Option Binman.Error :=
      if resp.ContentLength > 0 then Response.decode resp.Body outT else (outT, none)
    match dec with
    | (out1, some e) => { err := some e, out := out1, requested := [url] }
    | (fc, none) =>
      if !fc.Error then { err := none, out := fc, requested := [url] }
      else { err := some (Binman.Error.errorString fc.ErrorString), out := fc, requested := [url] }

/-- The method `Client.CreateRepo`. -/
def Client.CreateRepo (c : Client) (id : Bytes) : Outcome Response :=
  let uri := c.formURI (ascii "/api/v1/create_repo/" ++ id)
  c.getBasicResponse uri { Error := false, ErrorString := [] }

/-- The method `Client.IndexRepo`. -/
def Client.IndexRepo (c : Client) (id : Bytes) : Outcome Response :=
  let uri := c.formURI (ascii "/api/v1/index_repo/" ++ id)
  c.getBasicResponse uri { Error := false, ErrorString := [] }

/-- The body the daemon sends when a repository is unknown: the envelope with
`error` set and the message "unknown resource", and a newline (48 bytes). -/
def unknownResourceBody : Bytes :=
  ascii "\x7b\"error\":true,\"errorString\":\"unknown resource\"\x7d\n"

/-- A client whose transport answers every request with the response `resp`. -/
def Client.answering (resp : HttpResponse) : Client := { client := fun _ => Except.ok resp }

end Libferry

/-! ## The order of keys -/

theorem keyLess_irrefl (a : Bytes) : keyLess a a = false := by
  induction a with
  | nil => rfl
  | cons x s ih => simp [keyLess, ih]

theorem keyLess_trans (a b c : Bytes) (hab : keyLess a b = true) (hbc : keyLess b c = true) :
    keyLess a c = true := by
  induction a generalizing b c with
  | nil =>
    cases b with
    | nil => simp [keyLess] at hab
    | cons y t =>
      cases c with
      | nil => simp [keyLess] at hbc
      | cons z u => simp [keyLess]
  | cons x s ih =>
    cases b with
    | nil => simp [keyLess] at hab
    | cons y t =>
      cases c with
      | nil => simp [keyLess] at hbc
      | cons z u =>
        simp only [keyLess, Bool.or_eq_true, Bool.and_eq_true, decide_eq_true_eq] at hab hbc ⊢
        rcases hab with hxy | ⟨hxy, hst⟩
        · rcases hbc with hyz | ⟨hyz, _⟩
          · exact Or.inl (lt_trans hxy hyz)
          · subst hyz; exact Or.inl hxy
        · subst hxy
          rcases hbc with hyz | ⟨hyz, htu⟩
          · exact Or.inl hyz
          · exact Or.inr ⟨hyz, ih t u hst htu⟩

theorem keyLess_total (a b : Bytes) (hab : keyLess a b = false) (hba : keyLess b a = false) :
    a = b := by
  induction a generalizing b with
  | nil =>
    cases b with
    | nil => rfl
    | cons y t => simp [keyLess] at hab
  | cons x s ih =>
    cases b with
    | nil => simp [keyLess] at hba
    | cons y t =>
      simp only [keyLess, Bool.or_eq_false_iff, Bool.and_eq_false_imp, decide_eq_false_iff_not,
        decide_eq_true_eq] at hab hba
      have hxy : x = y := by
        apply Fin.ext
        have h1 := hab.1
        have h2 := hba.1
        omega
      subst hxy
      rw [ih t (hab.2 rfl) (hba.2 rfl)]

theorem keyLess_ne {a b : Bytes} (h : keyLess a b = true) : a ≠ b := by
  intro hab
  subst hab
  rw [keyLess_irrefl] at h
  exact Bool.false_ne_true h

/-! ## The bucket operations on well-formed buckets -/

theorem Bucket.WF_cons {k v : Bytes} {rest : Bucket} :
    Bucket.WF ((k, v) :: rest) ↔ (∀ e ∈ rest, keyLess k e.1 = true) ∧ Bucket.WF rest := by
  unfold Bucket.WF
  exact List.pairwise_cons

theorem Bucket.find_none_of_below {b : Bucket} {k key : Bytes}
    (hall : ∀ e ∈ b, keyLess k e.1 = true) (hk : keyLess k key = false) :
    b.find? (fun e => e.1 = key) = none := by
  rw [List.find?_eq_none]
  intro e he
  have h1 := hall e he
  simp only [decide_eq_true_eq]
  intro heq
  rw [heq, hk] at h1
  exact Bool.false_ne_true h1

/-- On a well-formed bucket the cursor lookup is the lookup of the map view. -/
theorem Bucket.Get_eq_find (b : Bucket) (hb : b.WF) (key : Bytes) :
    b.Get key = (b.find? (fun e => e.1 = key)).map Prod.snd := by
  induction b with
  | nil => rfl
  | cons e rest ih =>
    obtain ⟨k, v⟩ := e
    rw [Bucket.WF_cons] at hb
    have ih1 := ih hb.2
    unfold Bucket.Get at ih1 ⊢
    by_cases h1 : keyLess k key = true
    · have hne : k ≠ key := keyLess_ne h1
      simp only [Bucket.seek, h1, if_true, List.find?_cons, hne, decide_False]
      exact ih1
    · by_cases h2 : k = key
      · subst h2
        simp [Bucket.seek, keyLess_irrefl]
      · have h3 : keyLess key k = true := by
          by_contra h3
          exact h2 (keyLess_total k key (by simpa using h1) (by simpa using h3))
        have hnone : rest.find? (fun e => e.1 = key) = none := by
          apply Bucket.find_none_of_below (k := k) hb.1
          cases hkk : keyLess k key
          · rfl
          · exact absurd hkk h1
        simp [Bucket.seek, h1, h2, hnone]

theorem Bucket.find_isSome_iff (b : Bucket) (key : Bytes) :
    (b.find? (fun e => e.1 = key)).isSome = true ↔ key ∈ b.keys := by
  induction b with
  | nil => simp [Bucket.keys]
  | cons e rest ih =>
    simp only [Bucket.keys, List.map_cons, List.mem_cons] at ih ⊢
    by_cases h : e.1 = key
    · simp [List.find?_cons, h]
    · have h2 : ¬ key = e.1 := fun hh => h hh.symm
      simp only [List.find?_cons, h, decide_False, h2, false_or]
      exact ih

/-- On a well-formed bucket `Get` answers non-nil exactly for the keys present. -/
theorem Bucket.Get_isSome_iff (b : Bucket) (hb : b.WF) (key : Bytes) :
    (b.Get key).isSome = true ↔ key ∈ b.keys := by
  rw [Bucket.Get_eq_find b hb key, ← Bucket.find_isSome_iff b key]
  cases b.find? (fun e => e.1 = key) <;> simp

theorem Bucket.Get_eq_none_iff (b : Bucket) (hb : b.WF) (key : Bytes) :
    b.Get key = none ↔ key ∉ b.keys := by
  rw [← Bucket.Get_isSome_iff b hb key]
  cases b.Get key <;> simp

theorem Bucket.mem_keys_iff (b : Bucket) (key : Bytes) :
    key ∈ b.keys ↔ ∃ v, (key, v) ∈ b := by
  simp [Bucket.keys]

theorem Bucket.mem_insert (b : Bucket) (key value : Bytes) (e : Bytes × Bytes) :
    e ∈ b.insert key value → e = (key, value) ∨ e ∈ b := by
  induction b with
  | nil => simp [Bucket.insert]
  | cons x rest ih =>
    obtain ⟨k, v⟩ := x
    unfold Bucket.insert
    split_ifs with h1 h2
    · intro he
      rcases List.mem_cons.1 he with he | he
      · exact Or.inr (he ▸ List.mem_cons_self _ _)
      · rcases ih he with h | h
        · exact Or.inl h
        · exact Or.inr (List.mem_cons_of_mem _ h)
    · intro he
      rcases List.mem_cons.1 he with he | he
      · exact Or.inl he
      · exact Or.inr (List.mem_cons_of_mem _ he)
    · intro he
      rcases List.mem_cons.1 he with he | he
      · exact Or.inl he
      · exact Or.inr he

/-- Inserting keeps the bucket well formed. -/
theorem Bucket.WF_insert (b : Bucket) (hb : b.WF) (key value : Bytes) :
    (b.insert key value).WF := by
  induction b with
  | nil => simp [Bucket.insert, Bucket.WF]
  | cons x rest ih =>
    obtain ⟨k, v⟩ := x
    rw [Bucket.WF_cons] at hb
    unfold Bucket.insert
    split_ifs with h1 h2
    · rw [Bucket.WF_cons]
      refine ⟨?_, ih hb.2⟩
      intro e he
      rcases Bucket.mem_insert rest key value e he with h | h
      · rw [h]; exact h1
      · exact hb.1 e h
    · subst h2
      rw [Bucket.WF_cons]
      exact hb
    · have h3 : keyLess key k = true := by
        by_contra h3
        exact h2 (keyLess_total k key (by simpa using h1) (by simpa using h3))
      rw [Bucket.WF_cons]
      refine ⟨?_, Bucket.WF_cons.2 hb⟩
      intro e he
      rcases List.mem_cons.1 he with he | he
      · rw [he]; exact h3
      · exact keyLess_trans _ _ _ h3 (hb.1 e he)

/-- A lookup right after an insert finds the inserted value, on any bucket. -/
theorem Bucket.Get_insert_self (b : Bucket) (key value : Bytes) :
    (b.insert key value).Get key = some value := by
  induction b with
  | nil => simp [Bucket.insert, Bucket.Get, Bucket.seek, keyLess_irrefl]
  | cons x rest ih =>
    obtain ⟨k, v⟩ := x
    unfold Bucket.Get at ih ⊢
    unfold Bucket.insert
    split_ifs with h1 h2
    · simp only [Bucket.seek, h1, if_true]
      exact ih
    · simp [Bucket.seek, keyLess_irrefl]
    · simp [Bucket.seek, keyLess_irrefl]

/-- The map view after an insert: the new value at `key`, the old ones elsewhere. -/
theorem Bucket.find_insert (b : Bucket) (hb : b.WF) (key value key1 : Bytes) :
    ((b.insert key value).find? (fun e => e.1 = key1)).map Prod.snd =
      if key1 = key then some value else (b.find? (fun e => e.1 = key1)).map Prod.snd := by
  rw [← Bucket.Get_eq_find _ (Bucket.WF_insert b hb key value)]
  by_cases hk : key1 = key
  · subst hk
    simp [Bucket.Get_insert_self]
  · rw [if_neg hk, ← Bucket.Get_eq_find b hb]
    clear hb
    induction b with
    | nil =>
      have hk2 : ¬ key = key1 := fun h => hk h.symm
      simp only [Bucket.insert, Bucket.Get, Bucket.seek]
      split_ifs <;> simp_all
    | cons x rest ih =>
      obtain ⟨k, v⟩ := x
      have hk2 : ¬ key = key1 := fun h => hk h.symm
      unfold Bucket.Get at ih ⊢
      unfold Bucket.insert
      split_ifs with h1 h2
      · simp only [Bucket.seek]
        split_ifs with h4
        · exact ih
        · rfl
      · subst h2
        simp only [Bucket.seek]
        split_ifs with h4
        · rfl
        · simp [hk2]
      · have h3 : keyLess key k = true := by
          by_contra h3
          exact h2 (keyLess_total k key (by simpa using h1) (by simpa using h3))
        simp only [Bucket.seek]
        by_cases h4 : keyLess key key1 = true
        · simp only [h4, if_true]
        · simp only [h4, hk2, if_false, Bool.false_eq_true]
          have h5 : keyLess k key1 = false := by
            cases h5 : keyLess k key1
            · rfl
            · exact absurd (keyLess_trans _ _ _ h3 h5) h4
          have h6 : k ≠ key1 := by
            intro h6
            subst h6
            exact h4 h3
          simp [h5, h6]

/-- On a well-formed bucket, erasing a key removes every pair with that key and
nothing else. -/
theorem Bucket.erase_eq_filter (b : Bucket) (hb : b.WF) (key : Bytes) :
    b.erase key = b.filter (fun e => decide (e.1 ≠ key)) := by
  induction b with
  | nil => rfl
  | cons x rest ih =>
    obtain ⟨k, v⟩ := x
    rw [Bucket.WF_cons] at hb
    unfold Bucket.erase
    split_ifs with h1 h2
    · have hne : k ≠ key := keyLess_ne h1
      rw [List.filter_cons_of_pos (by simpa using hne), ih hb.2]
    · subst h2
      rw [List.filter_cons_of_neg (by simp)]
      symm
      rw [List.filter_eq_self]
      intro e he
      have := keyLess_ne (hb.1 e he)
      simpa using fun h => this h.symm
    · have h3 : keyLess key k = true := by
        by_contra h3
        exact h2 (keyLess_total k key (by simpa using h1) (by simpa using h3))
      symm
      rw [List.filter_eq_self]
      intro e he
      rcases List.mem_cons.1 he with he | he
      · rw [he]
        simpa using h2
      · have := keyLess_ne (keyLess_trans _ _ _ h3 (hb.1 e he))
        simpa using fun h => this h.symm

/-- Erasing keeps the bucket well formed. -/
theorem Bucket.WF_erase (b : Bucket) (hb : b.WF) (key : Bytes) : (b.erase key).WF := by
  rw [Bucket.erase_eq_filter b hb key]
  exact List.Pairwise.filter _ hb

/-- The map view after an erase: nothing at `key`, the old values elsewhere. -/
theorem Bucket.find_erase (b : Bucket) (hb : b.WF) (key key1 : Bytes) :
    ((b.erase key).find? (fun e => e.1 = key1)).map Prod.snd =
      if key1 = key then none else (b.find? (fun e => e.1 = key1)).map Prod.snd := by
  rw [Bucket.erase_eq_filter b hb key]
  clear hb
  induction b with
  | nil => simp
  | cons x rest ih =>
    by_cases hx : x.1 = key
    · rw [List.filter_cons_of_neg (by simpa using hx), ih]
      by_cases hk : key1 = key
      · simp [hk]
      · have : ¬ x.1 = key1 := fun h => hk (h ▸ hx)
        simp [hk, List.find?_cons, this]
    · rw [List.filter_cons_of_pos (by simpa using hx)]
      by_cases hk : key1 = key
      · subst hk
        simp only [if_true] at ih ⊢
        rw [List.find?_cons_of_neg _ (by simpa using hx)]
        exact ih
      · simp only [hk, if_false] at ih ⊢
        by_cases hx1 : x.1 = key1
        · simp [List.find?_cons, hx1]
        · rw [List.find?_cons_of_neg _ (by simpa using hx1),
            List.find?_cons_of_neg _ (by simpa using hx1)]
          exact ih

theorem Bucket.mem_keys_insert (b : Bucket) (hb : b.WF) (key value n : Bytes) :
    n ∈ (b.insert key value).keys ↔ n = key ∨ n ∈ b.keys := by
  rw [← Bucket.find_isSome_iff, ← Bucket.find_isSome_iff]
  have h := Bucket.find_insert b hb key value n
  by_cases hk : n = key
  · rw [if_pos hk] at h
    have h2 : ((b.insert key value).find? (fun e => e.1 = n)).isSome = true := by
      cases hf : (b.insert key value).find? (fun e => e.1 = n) with
      | none => rw [hf] at h; simp at h
      | some _ => rfl
    exact ⟨fun _ => Or.inl hk, fun _ => h2⟩
  · rw [if_neg hk] at h
    have h2 : ((b.insert key value).find? (fun e => e.1 = n)).isSome
        = (b.find? (fun e => e.1 = n)).isSome := by
      have := congrArg Option.isSome h
      simpa using this
    rw [h2]
    simp [hk]

theorem Bucket.mem_keys_erase (b : Bucket) (hb : b.WF) (key n : Bytes) :
    n ∈ (b.erase key).keys ↔ n ≠ key ∧ n ∈ b.keys := by
  rw [Bucket.erase_eq_filter b hb key]
  simp only [Bucket.keys, List.mem_map, List.mem_filter, decide_eq_true_eq]
  constructor
  · rintro ⟨e, ⟨he, hne⟩, rfl⟩
    exact ⟨hne, e, he, rfl⟩
  · rintro ⟨hne, e, he, rfl⟩
    exact ⟨e, ⟨he, hne⟩, rfl⟩

/-- The keys of a well-formed bucket are pairwise different. -/
theorem Bucket.nodup_keys (b : Bucket) (hb : b.WF) : b.keys.Nodup := by
  unfold Bucket.keys List.Nodup
  rw [List.pairwise_map]
  exact List.Pairwise.imp (fun h => keyLess_ne h) hb

/-- The keys of a well-formed bucket are strictly ascending. -/
theorem Bucket.sorted_keys (b : Bucket) (hb : b.WF) :
    b.keys.Pairwise (fun x y => keyLess x y = true) := by
  unfold Bucket.keys
  rw [List.pairwise_map]
  exact hb

/-- Two well-formed buckets with the same keys list them in the same order. -/
theorem Bucket.keys_eq_of_mem_iff (b1 b2 : Bucket) (h1 : b1.WF) (h2 : b2.WF)
    (hmem : ∀ n, n ∈ b1.keys ↔ n ∈ b2.keys) : b1.keys = b2.keys := by
  haveI : IsAntisymm Bytes (fun x y => keyLess x y = true) :=
    ⟨fun a b hab hba => by
      have := keyLess_trans a b a hab hba
      rw [keyLess_irrefl] at this
      exact absurd this Bool.false_ne_true⟩
  have hperm : b1.keys.Perm b2.keys :=
    (List.perm_ext_iff_of_nodup (Bucket.nodup_keys b1 h1) (Bucket.nodup_keys b2 h2)).2 hmem
  exact List.eq_of_perm_of_sorted hperm (Bucket.sorted_keys b1 h1) (Bucket.sorted_keys b2 h2)

theorem Bucket.ForEach_collect (b : Bucket) (acc : List Bytes) :
    Bucket.ForEach (fun k _ (repos : List Bytes) => (none, repos ++ [k])) b acc
      = (none, acc ++ b.keys) := by
  induction b generalizing acc with
  | nil => simp [Bucket.ForEach, Bucket.keys]
  | cons x rest ih =>
    obtain ⟨k, v⟩ := x
    simp only [Bucket.ForEach, ih, Bucket.keys, List.map_cons, List.append_assoc,
      List.singleton_append]

/-! ## The operations of the repository directory, unfolded -/

theorem Manager.ListRepos_eq (db : Store) :
    Manager.ListRepos db = ((db.repos.keys, none), db) := by
  simp [Manager.ListRepos, DB.View, Bucket.ForEach_collect]

theorem Manager.CreateRepo_eq (db : Store) (name : Bytes) :
    Manager.CreateRepo db name =
      if (db.repos.Get name).isSome then (some Error.ErrResourceExists, db)
      else if name.length = 0 then (some Error.ErrKeyRequired, db)
      else if name.length > MaxKeySize then (some Error.ErrKeyTooLarge, db)
      else if (jsonEncode { Name := name }).1.length > MaxValueSize then
        (some Error.ErrValueTooLarge, db)
      else (none, { repos := db.repos.insert name (jsonEncode { Name := name }).1 }) := by
  simp only [Manager.CreateRepo, jsonEncode, DB.Update, Bucket.Put]
  split_ifs <;> rfl

theorem Manager.RemoveRepo_eq (db : Store) (name : Bytes) :
    Manager.RemoveRepo db name =
      if (db.repos.Get name).isNone then (some Error.ErrUnknownResource, db)
      else (none, { repos := db.repos.erase name }) := by
  simp only [Manager.RemoveRepo, DB.Update, Bucket.Delete]
  split_ifs <;> rfl

theorem Manager.GetRepo_eq (db : Store) (name : Bytes) :
    Manager.GetRepo db name =
      match db.repos.Get name with
      | none => ((none, some Error.ErrUnknownResource), db)
      | some blob =>
        match (jsonUnmarshal blob { Name := [] }).2 with
        | some err => ((none, some err), db)
        | none => ((some (jsonUnmarshal blob { Name := [] }).1, none), db) := by
  simp only [Manager.GetRepo, DB.View]
  cases db.repos.Get name with
  | none => rfl
  | some blob =>
    simp only
    rcases jsonUnmarshal blob { Name := [] } with ⟨r, e⟩
    cases e <;> rfl

theorem Manager.CreateRepo_WF (db : Store) (hdb : db.WF) (name : Bytes) :
    (Manager.CreateRepo db name).2.WF := by
  rw [Manager.CreateRepo_eq]
  split_ifs
  · exact hdb
  · exact hdb
  · exact hdb
  · exact hdb
  · exact Bucket.WF_insert db.repos hdb _ _

theorem Manager.RemoveRepo_WF (db : Store) (hdb : db.WF) (name : Bytes) :
    (Manager.RemoveRepo db name).2.WF := by
  rw [Manager.RemoveRepo_eq]
  split_ifs
  · exact hdb
  · exact Bucket.WF_erase db.repos hdb _

theorem Op.apply_WF (db : Store) (hdb : db.WF) (op : Op) : (Op.apply db op).WF := by
  cases op with
  | create name => exact Manager.CreateRepo_WF db hdb name
  | remove name => exact Manager.RemoveRepo_WF db hdb name

theorem run_append_singleton (ops : List Op) (op : Op) :
    run (ops ++ [op]) = Op.apply (run ops) op := by
  simp [run, List.foldl_append]

/-- Every database reached from the empty one is well formed. -/
theorem run_WF (ops : List Op) : (run ops).WF := by
  induction ops using List.reverseRecOn with
  | nil => simp [run, Store.empty, Store.WF, Bucket.WF]
  | append_singleton ops op ih =>
    rw [run_append_singleton]
    exact Op.apply_WF _ ih op

/-- On a well-formed bucket `Get` returns exactly the value stored under the key. -/
theorem Bucket.Get_eq_some_iff (b : Bucket) (hb : b.WF) (key v : Bytes) :
    b.Get key = some v ↔ (key, v) ∈ b := by
  rw [Bucket.Get_eq_find b hb key]
  induction b with
  | nil => simp
  | cons x rest ih =>
    obtain ⟨k, w⟩ := x
    rw [Bucket.WF_cons] at hb
    by_cases hk : k = key
    · subst hk
      simp only [List.find?_cons, decide_True, Option.map_some', Option.some.injEq,
        List.mem_cons, Prod.mk.injEq, true_and]
      constructor
      · intro h; exact Or.inl h.symm
      · rintro (h | h)
        · exact h.symm
        · have := hb.1 _ h
          rw [keyLess_irrefl] at this
          exact absurd this Bool.false_ne_true
    · have hk2 : ¬ key = k := fun h => hk h.symm
      rw [List.find?_cons_of_neg _ (by simpa using hk)]
      simp only [List.mem_cons, Prod.mk.injEq, hk2, false_and, false_or]
      exact ih hb.2

theorem Repository.setMember_isJson (acc : Repository × Option Error) (m : Bytes × JValue)
    (hacc : ∀ e, acc.2 = some e → e.isJson = true) :
    ∀ e, (Repository.setMember acc m).2 = some e → e.isJson = true := by
  intro e
  unfold Repository.setMember
  split
  · split
    · exact hacc e
    · exact hacc e
    · cases hsaved : acc.2 with
      | none =>
        simp only [saveError, Option.some.injEq]
        intro h
        rw [← h]
        rfl
      | some e0 =>
        simp only [saveError, Option.some.injEq]
        intro h
        rw [← h]
        exact hacc e0 hsaved
  · exact hacc e

theorem Repository.foldl_setMember_isJson (ms : List (Bytes × JValue))
    (acc : Repository × Option Error) (hacc : ∀ e, acc.2 = some e → e.isJson = true) :
    ∀ e, (ms.foldl Repository.setMember acc).2 = some e → e.isJson = true := by
  induction ms generalizing acc with
  | nil => exact hacc
  | cons m ms ih =>
    rw [List.foldl_cons]
    exact ih _ (Repository.setMember_isJson acc m hacc)

/-- Whatever `json.Unmarshal` reports is one of its own error types. -/
theorem jsonUnmarshal_isJson (data : Bytes) (repo : Repository) (e : Error)
    (h : (jsonUnmarshal data repo).2 = some e) : e.isJson = true := by
  unfold jsonUnmarshal at h
  split at h
  · simp only [Option.some.injEq] at h
    rw [← h]; rfl
  · exact Repository.foldl_setMember_isJson _ _ (by simp) e h
  · simp at h
  · simp only [Option.some.injEq] at h
    rw [← h]; rfl

theorem Manager.GetRepo_unknown_iff (db : Store) (hdb : db.WF) (name : Bytes) :
    (Manager.GetRepo db name).1.2 = some Error.ErrUnknownResource ↔ name ∉ db.repos.keys := by
  rw [Manager.GetRepo_eq, ← Bucket.Get_eq_none_iff db.repos hdb name]
  cases hget : db.repos.Get name with
  | none => simp
  | some blob =>
    simp only
    cases hj : (jsonUnmarshal blob { Name := [] }).2 with
    | none => simp
    | some e =>
      have := jsonUnmarshal_isJson _ _ e hj
      simp only [Option.some.injEq, reduceCtorEq, iff_false]
      intro he
      rw [he] at this
      exact absurd this (by decide)

/-! ## The repository directory: name uniqueness, lookup, removal, listing -/

/-- C2: on a well-formed database in which the repository bucket holds a
record under `n`, `CreateRepo(n)` returns `ErrResourceExists` and leaves the
database as it was; in particular a second `CreateRepo(n)` right after a
successful one fails so. When `n` has no record, `CreateRepo(n)` does not return
`ErrResourceExists`. -/
theorem CreateRepo_name_unique (db : Store) (hdb : db.WF) (n : Bytes) :
    ((∃ v, (n, v) ∈ db.repos) →
        Manager.CreateRepo db n = (some Error.ErrResourceExists, db)) ∧
    ((∀ v, (n, v) ∉ db.repos) →
        (Manager.CreateRepo db n).1 ≠ some Error.ErrResourceExists) ∧
    ((Manager.CreateRepo db n).1 = none →
        Manager.CreateRepo (Manager.CreateRepo db n).2 n
          = (some Error.ErrResourceExists, (Manager.CreateRepo db n).2)) := by
  refine ⟨?_, ?_, ?_⟩
  · rintro ⟨v, hv⟩
    have hget : db.repos.Get n = some v := (Bucket.Get_eq_some_iff db.repos hdb n v).2 hv
    rw [Manager.CreateRepo_eq, hget]
    rfl
  · intro hno
    have hget : db.repos.Get n = none := by
      rw [Bucket.Get_eq_none_iff db.repos hdb n, Bucket.mem_keys_iff]
      rintro ⟨v, hv⟩
      exact hno v hv
    rw [Manager.CreateRepo_eq, hget]
    simp only [Option.isSome_none, Bool.false_eq_true, if_false]
    split_ifs <;> simp
  · intro hok
    rw [Manager.CreateRepo_eq] at hok
    split_ifs at hok with h1 h2 h3 h4
    have hstate : (Manager.CreateRepo db n).2
        = { repos := db.repos.insert n (jsonEncode { Name := n }).1 } := by
      rw [Manager.CreateRepo_eq]
      simp only [h1, h2, h3, h4, if_false]
      rfl
    rw [hstate, Manager.CreateRepo_eq]
    simp only [Bucket.Get_insert_self, Option.isSome_some, if_true]

/-- C2, at the store holding "shannon": creating "shannon" again fails. -/
theorem CreateRepo_name_unique_witness :
    Manager.CreateRepo (run [Op.create (ascii "shannon")]) (ascii "shannon")
      = (some Error.ErrResourceExists, run [Op.create (ascii "shannon")]) :=
  (CreateRepo_name_unique (run [Op.create (ascii "shannon")]) (run_WF _) (ascii "shannon")).1
    ⟨(jsonEncode { Name := ascii "shannon" }).1, by decide⟩

/-- C3: on a well-formed database `GetRepo(name)` fails with
`ErrUnknownResource` exactly when the bucket holds no record under `name`, and
then the repository returned is nil; a record that does not decode gives the
decoder's error, which is not `ErrUnknownResource`; the database is never
changed. -/
theorem GetRepo_not_found_iff (db : Store) (hdb : db.WF) (name : Bytes) :
    ((Manager.GetRepo db name).1.2 = some Error.ErrUnknownResource ↔
        ∀ v, (name, v) ∉ db.repos) ∧
    ((Manager.GetRepo db name).1.2 = some Error.ErrUnknownResource →
        (Manager.GetRepo db name).1.1 = none) ∧
    (∀ v e, (name, v) ∈ db.repos → (jsonUnmarshal v { Name := [] }).2 = some e →
        (Manager.GetRepo db name).1 = (none, some e) ∧ e ≠ Error.ErrUnknownResource) ∧
    (Manager.GetRepo db name).2 = db := by
  refine ⟨?_, ?_, ?_, ?_⟩
  · rw [Manager.GetRepo_unknown_iff db hdb name, Bucket.mem_keys_iff]
    simp
  · rw [Manager.GetRepo_eq]
    cases db.repos.Get name with
    | none => simp
    | some blob =>
      simp only
      cases (jsonUnmarshal blob { Name := [] }).2 <;> simp
  · intro v e hv he
    have hget : db.repos.Get name = some v := (Bucket.Get_eq_some_iff db.repos hdb name v).2 hv
    refine ⟨?_, ?_⟩
    · rw [Manager.GetRepo_eq, hget]
      simp only [he]
    · intro heq
      have := jsonUnmarshal_isJson _ _ e he
      rw [heq] at this
      exact absurd this (by decide)
  · rw [Manager.GetRepo_eq]
    cases db.repos.Get name with
    | none => rfl
    | some blob =>
      simp only
      cases (jsonUnmarshal blob { Name := [] }).2 <;> rfl

/-- C3, at a store whose record under "x" is the two bytes `{]`: the lookup
reports a syntax error, not `ErrUnknownResource`, and at the absent name "y" it
reports `ErrUnknownResource`. -/
theorem GetRepo_not_found_iff_witness :
    (Manager.GetRepo { repos := [(ascii "x", ascii "\x7b]")] } (ascii "x")).1
        = (none, some Error.SyntaxError) ∧
    (Manager.GetRepo { repos := [(ascii "x", ascii "\x7b]")] } (ascii "y")).1.2
        = some Error.ErrUnknownResource :=
  ⟨((GetRepo_not_found_iff { repos := [(ascii "x", ascii "\x7b]")] } (by decide)
      (ascii "x")).2.2.1 (ascii "\x7b]") Error.SyntaxError (by decide) (by decide)).1,
   (GetRepo_not_found_iff { repos := [(ascii "x", ascii "\x7b]")] } (by decide)
      (ascii "y")).1.2
      (fun _ hv => absurd (congrArg Prod.fst (List.mem_singleton.1 hv))
        (show ¬ ascii "y" = ascii "x" by decide))⟩

theorem Store.toMap_eq_Get (db : Store) (hdb : db.WF) (key : Bytes) :
    db.toMap key = db.repos.Get key := by
  unfold Store.toMap
  exact (Bucket.Get_eq_find db.repos hdb key).symm

theorem Manager.GetRepo_congr (db1 db2 : Store) (name : Bytes)
    (h : db1.repos.Get name = db2.repos.Get name) :
    (Manager.GetRepo db1 name).1 = (Manager.GetRepo db2 name).1 := by
  rw [Manager.GetRepo_eq, Manager.GetRepo_eq, h]
  cases db2.repos.Get name with
  | none => rfl
  | some blob =>
    simp only
    cases (jsonUnmarshal blob { Name := [] }).2 <;> rfl

/-- C4: on a well-formed database `RemoveRepo(name)` is the reference removal
on the bucket viewed as a map. When `name` has no record it returns
`ErrUnknownResource` and the database is unchanged. Otherwise it succeeds, the
bucket is the old one without the pairs whose key is `name`, a following
`GetRepo(name)` fails with `ErrUnknownResource`, and for every other name the
stored record and the answer of `GetRepo` are as before. -/
theorem RemoveRepo_refines (db : Store) (hdb : db.WF) (name : Bytes) :
    ((Manager.RemoveRepo db name).1, (Manager.RemoveRepo db name).2.toMap)
        = removeSpec db.toMap name ∧
    ((∀ v, (name, v) ∉ db.repos) →
        Manager.RemoveRepo db name = (some Error.ErrUnknownResource, db)) ∧
    ((∃ v, (name, v) ∈ db.repos) →
        (Manager.RemoveRepo db name).1 = none ∧
        (Manager.RemoveRepo db name).2.repos = db.repos.filter (fun e => decide (e.1 ≠ name)) ∧
        (Manager.GetRepo (Manager.RemoveRepo db name).2 name).1
          = (none, some Error.ErrUnknownResource) ∧
        ∀ m, m ≠ name →
          (Manager.RemoveRepo db name).2.toMap m = db.toMap m ∧
          (Manager.GetRepo (Manager.RemoveRepo db name).2 m).1 = (Manager.GetRepo db m).1) := by
  have hwf2 : (Manager.RemoveRepo db name).2.WF := Manager.RemoveRepo_WF db hdb name
  refine ⟨?_, ?_, ?_⟩
  · unfold removeSpec
    rw [Store.toMap_eq_Get db hdb name, Manager.RemoveRepo_eq]
    cases hget : db.repos.Get name with
    | none => rfl
    | some v =>
      simp only [Option.isNone_some, Bool.false_eq_true, if_false, Prod.mk.injEq, true_and]
      funext key
      have h := Bucket.find_erase db.repos hdb name key
      unfold Store.toMap
      exact h
  · intro hno
    have hget : db.repos.Get name = none := by
      rw [Bucket.Get_eq_none_iff db.repos hdb name, Bucket.mem_keys_iff]
      rintro ⟨v, hv⟩
      exact hno v hv
    rw [Manager.RemoveRepo_eq, hget]
    rfl
  · rintro ⟨v, hv⟩
    have hget : db.repos.Get name = some v := (Bucket.Get_eq_some_iff db.repos hdb name v).2 hv
    have hstate : Manager.RemoveRepo db name = (none, { repos := db.repos.erase name }) := by
      rw [Manager.RemoveRepo_eq, hget]
      rfl
    have hmap : ∀ m, (Manager.RemoveRepo db name).2.toMap m
        = if m = name then none else db.toMap m := by
      intro m
      rw [hstate]
      exact Bucket.find_erase db.repos hdb name m
    refine ⟨by rw [hstate], ?_, ?_, ?_⟩
    · rw [hstate]
      exact Bucket.erase_eq_filter db.repos hdb name
    · have h1 := hmap name
      rw [if_pos rfl, Store.toMap_eq_Get _ hwf2] at h1
      rw [Manager.GetRepo_eq, h1]
    · intro m hm
      have h1 := hmap m
      rw [if_neg hm] at h1
      refine ⟨h1, ?_⟩
      apply Manager.GetRepo_congr
      rw [← Store.toMap_eq_Get _ hwf2, ← Store.toMap_eq_Get _ hdb]
      exact h1

/-- C4, at the store holding "a" and "b": removing "a" succeeds and leaves "b". -/
theorem RemoveRepo_refines_witness :
    (Manager.RemoveRepo (run [Op.create (ascii "b"), Op.create (ascii "a")]) (ascii "a")).1 = none ∧
    (Manager.RemoveRepo (run [Op.create (ascii "b"), Op.create (ascii "a")]) (ascii "a")).2.repos
      = (run [Op.create (ascii "b"), Op.create (ascii "a")]).repos.filter
          (fun e => decide (e.1 ≠ ascii "a")) :=
  ⟨((RemoveRepo_refines (run [Op.create (ascii "b"), Op.create (ascii "a")]) (run_WF _)
      (ascii "a")).2.2 ⟨(jsonEncode { Name := ascii "a" }).1, by decide⟩).1,
   ((RemoveRepo_refines (run [Op.create (ascii "b"), Op.create (ascii "a")]) (run_WF _)
      (ascii "a")).2.2 ⟨(jsonEncode { Name := ascii "a" }).1, by decide⟩).2.1⟩

theorem Op.mem_keys_apply (db : Store) (hdb : db.WF) (op : Op) (n : Bytes) :
    n ∈ (Op.apply db op).repos.keys ↔
      (n ∈ db.repos.keys ∧ op ≠ Op.remove n) ∨
      (op = Op.create n ∧ (Manager.CreateRepo db n).1 = none) := by
  cases op with
  | create m =>
    simp only [Op.apply, ne_eq, reduceCtorEq, not_false_eq_true, and_true, Op.create.injEq]
    rw [Manager.CreateRepo_eq]
    split_ifs with h1 h2 h3 h4
    · constructor
      · exact fun h => Or.inl h
      · rintro (h | ⟨rfl, h⟩)
        · exact h
        · rw [Manager.CreateRepo_eq, if_pos h1] at h
          simp at h
    · constructor
      · exact fun h => Or.inl h
      · rintro (h | ⟨rfl, h⟩)
        · exact h
        · rw [Manager.CreateRepo_eq, if_neg h1, if_pos h2] at h
          simp at h
    · constructor
      · exact fun h => Or.inl h
      · rintro (h | ⟨rfl, h⟩)
        · exact h
        · rw [Manager.CreateRepo_eq, if_neg h1, if_neg h2, if_pos h3] at h
          simp at h
    · constructor
      · exact fun h => Or.inl h
      · rintro (h | ⟨rfl, h⟩)
        · exact h
        · rw [Manager.CreateRepo_eq, if_neg h1, if_neg h2, if_neg h3, if_pos h4] at h
          simp at h
    · simp only
      rw [Bucket.mem_keys_insert db.repos hdb]
      constructor
      · rintro (h | h)
        · subst h
          right
          refine ⟨rfl, ?_⟩
          rw [Manager.CreateRepo_eq, if_neg h1, if_neg h2, if_neg h3, if_neg h4]
        · exact Or.inl h
      · rintro (h | ⟨h, _⟩)
        · exact Or.inr h
        · exact Or.inl h.symm
  | remove m =>
    simp only [Op.apply, ne_eq, Op.remove.injEq, reduceCtorEq, false_and, or_false]
    rw [Manager.RemoveRepo_eq]
    split_ifs with h1
    · simp only [Option.isNone_iff_eq_none] at h1
      rw [Bucket.Get_eq_none_iff db.repos hdb m] at h1
      constructor
      · intro h
        refine ⟨h, ?_⟩
        intro hmn
        subst hmn
        exact h1 h
      · exact fun h => h.1
    · simp only
      rw [Bucket.mem_keys_erase db.repos hdb]
      constructor
      · rintro ⟨h1, h2⟩
        exact ⟨h2, fun h => h1 h.symm⟩
      · rintro ⟨h1, h2⟩
        exact ⟨fun h => h2 h.symm, h1⟩

/-- A name that was created with success and not removed afterwards is in the bucket. -/
theorem run_mem_keys_of_created (pre post : List Op) (n : Bytes)
    (hok : (Manager.CreateRepo (run pre) n).1 = none) (hpost : Op.remove n ∉ post) :
    n ∈ (run (pre ++ Op.create n :: post)).repos.keys := by
  induction post using List.reverseRecOn with
  | nil =>
    rw [run_append_singleton, Op.mem_keys_apply _ (run_WF pre)]
    exact Or.inr ⟨rfl, hok⟩
  | append_singleton post op ih =>
    have hlist : pre ++ Op.create n :: (post ++ [op]) = (pre ++ Op.create n :: post) ++ [op] := by
      simp
    rw [hlist, run_append_singleton, Op.mem_keys_apply _ (run_WF _)]
    left
    refine ⟨ih ?_, ?_⟩
    · intro h
      exact hpost (List.mem_append_left _ h)
    · intro h
      exact hpost (List.mem_append_right _ (by simp [h]))

/-- A name in the bucket was created with success and not removed afterwards. -/
theorem run_created_of_mem_keys (ops : List Op) (n : Bytes)
    (hn : n ∈ (run ops).repos.keys) :
    ∃ pre post, ops = pre ++ Op.create n :: post ∧
      (Manager.CreateRepo (run pre) n).1 = none ∧ Op.remove n ∉ post := by
  induction ops using List.reverseRecOn with
  | nil => simp [run, Store.empty, Bucket.keys] at hn
  | append_singleton ops op ih =>
    rw [run_append_singleton, Op.mem_keys_apply _ (run_WF ops)] at hn
    rcases hn with ⟨hmem, hop⟩ | ⟨hop, hok⟩
    · obtain ⟨pre, post, hops, hok, hpost⟩ := ih hmem
      refine ⟨pre, post ++ [op], ?_, hok, ?_⟩
      · rw [hops]; simp
      · intro h
        rcases List.mem_append.1 h with h | h
        · exact hpost h
        · exact hop (List.mem_singleton.1 h).symm
    · exact ⟨ops, [], by rw [hop], hok, by simp⟩

/-- C5: in every database reached from the empty one by `CreateRepo` and
`RemoveRepo` calls, `ListRepos` succeeds and lists a name exactly when some
`CreateRepo` of it succeeded with no `RemoveRepo` of it after, which is exactly
when `GetRepo` of it does not fail with `ErrUnknownResource`; no name is listed
twice; the list is in ascending key order, so two histories that leave the same
names give the same list in the same order, and a second call gives the same
list; the database is not changed. -/
theorem ListRepos_enumerates (ops : List Op) :
    (Manager.ListRepos (run ops)).1.2 = none ∧
    (∀ n, n ∈ (Manager.ListRepos (run ops)).1.1 ↔
        ∃ pre post, ops = pre ++ Op.create n :: post ∧
          (Manager.CreateRepo (run pre) n).1 = none ∧ Op.remove n ∉ post) ∧
    (∀ n, n ∈ (Manager.ListRepos (run ops)).1.1 ↔
        (Manager.GetRepo (run ops) n).1.2 ≠ some Error.ErrUnknownResource) ∧
    (Manager.ListRepos (run ops)).1.1.Nodup ∧
    (Manager.ListRepos (run ops)).1.1.Pairwise (fun x y => keyLess x y = true) ∧
    (∀ ops2 : List Op,
        (∀ n, n ∈ (Manager.ListRepos (run ops)).1.1 ↔ n ∈ (Manager.ListRepos (run ops2)).1.1) →
        (Manager.ListRepos (run ops)).1.1 = (Manager.ListRepos (run ops2)).1.1) ∧
    (Manager.ListRepos (Manager.ListRepos (run ops)).2).1 = (Manager.ListRepos (run ops)).1 ∧
    (Manager.ListRepos (run ops)).2 = run ops := by
  simp only [Manager.ListRepos_eq]
  refine ⟨trivial, ?_, ?_, ?_, ?_, ?_, trivial, ?_⟩
  rotate_right
  · trivial
  · intro n
    constructor
    · exact run_created_of_mem_keys ops n
    · rintro ⟨pre, post, hops, hok, hpost⟩
      rw [hops]
      exact run_mem_keys_of_created pre post n hok hpost
  · intro n
    rw [ne_eq, Manager.GetRepo_unknown_iff (run ops) (run_WF ops) n, not_not]
  · exact Bucket.nodup_keys _ (run_WF ops)
  · exact Bucket.sorted_keys _ (run_WF ops)
  · intro ops2 hmem
    exact Bucket.keys_eq_of_mem_iff _ _ (run_WF ops) (run_WF ops2) hmem

/-! ## Create and get: the record round trip -/

theorem hexVal_hexDigit (x : Nat) (hx : x < 16) : hexVal (hexDigit x) = some x := by
  interval_cases x <;> rfl

theorem byte_val (b : Byte) : byte b.val = b := by
  apply Fin.ext
  simp only [byte]
  omega

theorem readString_encodeAscii (b : Byte) (hb : b.val < 0x80) (g : Nat) (tail acc : Bytes) :
    readString (g + 1) (encodeAscii b ++ tail) acc = readString g tail (acc ++ [b]) := by
  unfold encodeAscii
  split_ifs with h1 h2 h3 h4 h5
  · obtain ⟨h10, h11, h12, _⟩ := h1
    have h13 : ¬ b.val < 0x20 := by omega
    simp [readString, h11, h12, h13, hb]
  · have hne : b.val ≠ 0x75 := by omega
    have hun : unescape b = some b := by
      unfold unescape
      rw [if_pos (by omega)]
    simp [readString, hne, hun, Fin.coe_ofNat_eq_mod]
  · have hb2 : b = 0x0A := Fin.ext h3
    subst hb2
    simp [readString, unescape, Fin.coe_ofNat_eq_mod]
  · have hb2 : b = 0x0D := Fin.ext h4
    subst hb2
    simp [readString, unescape, Fin.coe_ofNat_eq_mod]
  · have hb2 : b = 0x09 := Fin.ext h5
    subst hb2
    simp [readString, unescape, Fin.coe_ofNat_eq_mod]
  · have hx1 : hexVal (hexDigit (b.val / 16)) = some (b.val / 16) := hexVal_hexDigit _ (by omega)
    have hx2 : hexVal (hexDigit (b.val % 16)) = some (b.val % 16) := hexVal_hexDigit _ (by omega)
    have h0 : hexVal (0x30 : Byte) = some 0 := by decide
    have hsum : b.val / 16 * 16 + b.val % 16 = b.val := by omega
    have hsur : isSurrogate b.val = false := by
      simp only [isSurrogate, Bool.and_eq_false_imp, decide_eq_true_eq, decide_eq_false_iff_not]
      omega
    have henc : encodeRune b.val = [b] := by
      unfold encodeRune
      rw [if_pos (by omega), byte_val]
    simp [readString, getu4, hx1, hx2, h0, hsum, hsur, henc, Fin.coe_ofNat_eq_mod]

/-! ### UTF-8: decoding a valid rune and encoding it again -/

theorem decodeRune_two (b b1 : Byte) (t : Bytes) (h0 : 0xC2 ≤ b.val) (h1 : b.val < 0xE0)
    (h2 : 0x80 ≤ b1.val) (h3 : b1.val ≤ 0xBF) :
    decodeRune (b :: b1 :: t) = ((b.val % 32) * 64 + b1.val % 64, 2) := by
  have hfs : firstSize b.val = 2 := by
    unfold firstSize
    split_ifs <;> omega
  have hlo : acceptLo b.val = 0x80 := by
    unfold acceptLo
    split_ifs <;> omega
  have hhi : acceptHi b.val = 0xBF := by
    unfold acceptHi
    split_ifs <;> omega
  have hr : ¬ (b1.val < 0x80 ∨ 0xBF < b1.val) := by omega
  simp [decodeRune, hfs, hlo, hhi, hr]

theorem decodeRune_three (b b1 b2 : Byte) (t : Bytes) (h0 : 0xE0 ≤ b.val) (h1 : b.val < 0xF0)
    (h2 : acceptLo b.val ≤ b1.val) (h3 : b1.val ≤ acceptHi b.val)
    (h4 : 0x80 ≤ b2.val) (h5 : b2.val ≤ 0xBF) :
    decodeRune (b :: b1 :: b2 :: t)
      = ((b.val % 16) * 4096 + (b1.val % 64) * 64 + b2.val % 64, 3) := by
  have hfs : firstSize b.val = 3 := by
    unfold firstSize
    split_ifs <;> omega
  have hr : ¬ (b1.val < acceptLo b.val ∨ acceptHi b.val < b1.val) := by omega
  have hr2 : ¬ (b2.val < 0x80 ∨ 0xBF < b2.val) := by omega
  simp [decodeRune, hfs, hr, hr2]

theorem decodeRune_four (b b1 b2 b3 : Byte) (t : Bytes) (h0 : 0xF0 ≤ b.val) (h1 : b.val < 0xF5)
    (h2 : acceptLo b.val ≤ b1.val) (h3 : b1.val ≤ acceptHi b.val)
    (h4 : 0x80 ≤ b2.val) (h5 : b2.val ≤ 0xBF) (h6 : 0x80 ≤ b3.val) (h7 : b3.val ≤ 0xBF) :
    decodeRune (b :: b1 :: b2 :: b3 :: t)
      = ((b.val % 8) * 262144 + (b1.val % 64) * 4096 + (b2.val % 64) * 64 + b3.val % 64, 4) := by
  have hfs : firstSize b.val = 4 := by
    unfold firstSize
    split_ifs <;> omega
  have hr : ¬ (b1.val < acceptLo b.val ∨ acceptHi b.val < b1.val) := by omega
  have hr2 : ¬ (b2.val < 0x80 ∨ 0xBF < b2.val) := by omega
  have hr3 : ¬ (b3.val < 0x80 ∨ 0xBF < b3.val) := by omega
  simp [decodeRune, hfs, hr, hr2, hr3]

/-- A sequence that starts with a non-ASCII byte and decodes without error
starts with a lead byte and the continuation bytes its range table asks for. -/
theorem decodeRune_multibyte (b : Byte) (t : Bytes) (hb : 0x80 ≤ b.val)
    (hv : ¬ ((decodeRune (b :: t)).1 = RuneError ∧ (decodeRune (b :: t)).2 = 1)) :
    (∃ b1 t1, t = b1 :: t1 ∧ 0xC2 ≤ b.val ∧ b.val < 0xE0 ∧ 0x80 ≤ b1.val ∧ b1.val ≤ 0xBF) ∨
    (∃ b1 b2 t2, t = b1 :: b2 :: t2 ∧ 0xE0 ≤ b.val ∧ b.val < 0xF0 ∧
      acceptLo b.val ≤ b1.val ∧ b1.val ≤ acceptHi b.val ∧ 0x80 ≤ b2.val ∧ b2.val ≤ 0xBF) ∨
    (∃ b1 b2 b3 t3, t = b1 :: b2 :: b3 :: t3 ∧ 0xF0 ≤ b.val ∧ b.val < 0xF5 ∧
      acceptLo b.val ≤ b1.val ∧ b1.val ≤ acceptHi b.val ∧ 0x80 ≤ b2.val ∧ b2.val ≤ 0xBF ∧
      0x80 ≤ b3.val ∧ b3.val ≤ 0xBF) := by
  by_cases hsz0 : firstSize b.val = 0
  · exfalso
    apply hv
    simp [decodeRune, hsz0]
  have hne1 : firstSize b.val ≠ 1 := by
    unfold firstSize
    split_ifs <;> omega
  cases t with
  | nil =>
    exfalso
    apply hv
    have : 0 + 1 < firstSize b.val := by
      unfold firstSize at hsz0 hne1 ⊢
      split_ifs at hsz0 hne1 ⊢ <;> omega
    simp [decodeRune, hsz0, hne1, this]
  | cons b1 t1 =>
    by_cases hr1 : b1.val < acceptLo b.val ∨ acceptHi b.val < b1.val
    · exfalso
      apply hv
      simp only [decodeRune, hne1, hsz0, if_false, hr1, if_true]
      split_ifs <;> simp
    by_cases hsz2 : firstSize b.val = 2
    · left
      refine ⟨b1, t1, rfl, ?_⟩
      unfold firstSize at hsz2
      unfold acceptLo acceptHi at hr1
      split_ifs at hsz2 hr1 <;> omega
    cases t1 with
    | nil =>
      exfalso
      apply hv
      have : 1 + 1 < firstSize b.val := by
        unfold firstSize at hsz0 hne1 hsz2 ⊢
        split_ifs at hsz0 hne1 hsz2 ⊢ <;> omega
      simp [decodeRune, hsz0, hne1, this]
    | cons b2 t2 =>
      by_cases hr2 : b2.val < 0x80 ∨ 0xBF < b2.val
      · exfalso
        apply hv
        simp only [decodeRune, hne1, hsz0, hsz2, if_false, hr1, hr2, if_true]
        split_ifs <;> simp
      by_cases hsz3 : firstSize b.val = 3
      · right; left
        refine ⟨b1, b2, t2, rfl, ?_⟩
        unfold firstSize at hsz3
        split_ifs at hsz3 <;> omega
      have hsz4 : 0xF0 ≤ b.val ∧ b.val < 0xF5 := by
        unfold firstSize at hsz0 hne1 hsz2 hsz3
        split_ifs at hsz0 hne1 hsz2 hsz3 <;> omega
      cases t2 with
      | nil =>
        exfalso
        apply hv
        have : 2 + 1 < firstSize b.val := by
          unfold firstSize
          split_ifs <;> omega
        simp [decodeRune, hsz0, hne1, this]
      | cons b3 t3 =>
        by_cases hr3 : b3.val < 0x80 ∨ 0xBF < b3.val
        · exfalso
          apply hv
          simp only [decodeRune, hne1, hsz0, hsz2, hsz3, if_false, hr1, hr2, hr3, if_true]
          split_ifs <;> simp
        right; right
        exact ⟨b1, b2, b3, t3, rfl, by omega⟩

theorem encodeRune_two (b b1 : Byte) (h0 : 0xC2 ≤ b.val) (h1 : b.val < 0xE0)
    (h2 : 0x80 ≤ b1.val) (h3 : b1.val ≤ 0xBF) :
    encodeRune ((b.val % 32) * 64 + b1.val % 64) = [b, b1] := by
  unfold encodeRune
  rw [if_neg (by omega), if_pos (by omega)]
  congr 1
  · apply Fin.ext
    simp only [byte]
    omega
  · congr 1
    apply Fin.ext
    simp only [byte]
    omega

theorem encodeRune_three (b b1 b2 : Byte) (h0 : 0xE0 ≤ b.val) (h1 : b.val < 0xF0)
    (h2 : acceptLo b.val ≤ b1.val) (h3 : b1.val ≤ acceptHi b.val)
    (h4 : 0x80 ≤ b2.val) (h5 : b2.val ≤ 0xBF) :
    encodeRune ((b.val % 16) * 4096 + (b1.val % 64) * 64 + b2.val % 64) = [b, b1, b2] := by
  unfold acceptLo at h2
  unfold acceptHi at h3
  unfold encodeRune
  rw [if_neg (by split_ifs at h2 h3 <;> omega), if_neg (by split_ifs at h2 h3 <;> omega),
    if_neg (by split_ifs at h2 h3 <;> omega), if_pos (by split_ifs at h2 h3 <;> omega)]
  congr 1
  · apply Fin.ext
    simp only [byte]
    split_ifs at h2 h3 <;> omega
  · congr 1
    · apply Fin.ext
      simp only [byte]
      split_ifs at h2 h3 <;> omega
    · congr 1
      apply Fin.ext
      simp only [byte]
      split_ifs at h2 h3 <;> omega

theorem encodeRune_four (b b1 b2 b3 : Byte) (h0 : 0xF0 ≤ b.val) (h1 : b.val < 0xF5)
    (h2 : acceptLo b.val ≤ b1.val) (h3 : b1.val ≤ acceptHi b.val)
    (h4 : 0x80 ≤ b2.val) (h5 : b2.val ≤ 0xBF) (h6 : 0x80 ≤ b3.val) (h7 : b3.val ≤ 0xBF) :
    encodeRune ((b.val % 8) * 262144 + (b1.val % 64) * 4096 + (b2.val % 64) * 64 + b3.val % 64)
      = [b, b1, b2, b3] := by
  unfold acceptLo at h2
  unfold acceptHi at h3
  unfold encodeRune
  rw [if_neg (by split_ifs at h2 h3 <;> omega), if_neg (by split_ifs at h2 h3 <;> omega),
    if_neg (by split_ifs at h2 h3 <;> omega), if_neg (by split_ifs at h2 h3 <;> omega)]
  congr 1
  · apply Fin.ext
    simp only [byte]
    split_ifs at h2 h3 <;> omega
  · congr 1
    · apply Fin.ext
      simp only [byte]
      split_ifs at h2 h3 <;> omega
    · congr 1
      · apply Fin.ext
        simp only [byte]
        split_ifs at h2 h3 <;> omega
      · congr 1
        apply Fin.ext
        simp only [byte]
        split_ifs at h2 h3 <;> omega

/-! ### Reading back what `encodeState.string` wrote -/

theorem readString_two (b b1 : Byte) (h0 : 0xC2 ≤ b.val) (h1 : b.val < 0xE0)
    (h2 : 0x80 ≤ b1.val) (h3 : b1.val ≤ 0xBF) (g : Nat) (tail acc : Bytes) :
    readString (g + 1) (b :: b1 :: tail) acc = readString g tail (acc ++ [b, b1]) := by
  have c1 : b.val ≠ 0x22 := by omega
  have c2 : b.val ≠ 0x5C := by omega
  have c3 : ¬ b.val < 0x20 := by omega
  have c4 : ¬ b.val < 0x80 := by omega
  simp [readString, c1, c2, c3, c4, decodeRune_two b b1 tail h0 h1 h2 h3,
    encodeRune_two b b1 h0 h1 h2 h3]

theorem readString_three (b b1 b2 : Byte) (h0 : 0xE0 ≤ b.val) (h1 : b.val < 0xF0)
    (h2 : acceptLo b.val ≤ b1.val) (h3 : b1.val ≤ acceptHi b.val)
    (h4 : 0x80 ≤ b2.val) (h5 : b2.val ≤ 0xBF) (g : Nat) (tail acc : Bytes) :
    readString (g + 1) (b :: b1 :: b2 :: tail) acc = readString g tail (acc ++ [b, b1, b2]) := by
  have c1 : b.val ≠ 0x22 := by omega
  have c2 : b.val ≠ 0x5C := by omega
  have c3 : ¬ b.val < 0x20 := by omega
  have c4 : ¬ b.val < 0x80 := by omega
  simp [readString, c1, c2, c3, c4, decodeRune_three b b1 b2 tail h0 h1 h2 h3 h4 h5,
    encodeRune_three b b1 b2 h0 h1 h2 h3 h4 h5]

theorem readString_four (b b1 b2 b3 : Byte) (h0 : 0xF0 ≤ b.val) (h1 : b.val < 0xF5)
    (h2 : acceptLo b.val ≤ b1.val) (h3 : b1.val ≤ acceptHi b.val)
    (h4 : 0x80 ≤ b2.val) (h5 : b2.val ≤ 0xBF) (h6 : 0x80 ≤ b3.val) (h7 : b3.val ≤ 0xBF)
    (g : Nat) (tail acc : Bytes) :
    readString (g + 1) (b :: b1 :: b2 :: b3 :: tail) acc
      = readString g tail (acc ++ [b, b1, b2, b3]) := by
  have c1 : b.val ≠ 0x22 := by omega
  have c2 : b.val ≠ 0x5C := by omega
  have c3 : ¬ b.val < 0x20 := by omega
  have c4 : ¬ b.val < 0x80 := by omega
  simp [readString, c1, c2, c3, c4, decodeRune_four b b1 b2 b3 tail h0 h1 h2 h3 h4 h5 h6 h7,
    encodeRune_four b b1 b2 b3 h0 h1 h2 h3 h4 h5 h6 h7]

theorem readString_separator (x : Nat) (hx : x = 0x2028 ∨ x = 0x2029) (g : Nat)
    (tail acc : Bytes) :
    readString (g + 1) ([0x5C, 0x75, 0x32, 0x30, 0x32, hexDigit (x % 16)] ++ tail) acc
      = readString g tail (acc ++ encodeRune x) := by
  rcases hx with rfl | rfl <;> rfl

theorem encodeAscii_length_pos (b : Byte) : 1 ≤ (encodeAscii b).length := by
  unfold encodeAscii
  split_ifs <;> simp

/-- The reader undoes the string encoder on valid UTF-8: reading the encoded
bytes of `n`, followed by the closing quote, appends `n` to the buffer. -/
theorem readString_encodeStringLoop (f : Nat) :
    ∀ (n acc rest : Bytes) (g : Nat), n.length ≤ f → validLoop f n = true →
      (encodeStringLoop f n).length + 1 ≤ g →
      readString g (encodeStringLoop f n ++ 0x22 :: rest) acc = some (acc ++ n, rest) := by
  induction f with
  | zero =>
    intro n acc rest g hlen _ hg
    have hn : n = [] := List.length_eq_zero.1 (by omega)
    subst hn
    obtain ⟨g, rfl⟩ : ∃ k, g = k + 1 := ⟨g - 1, by omega⟩
    simp [encodeStringLoop, readString, Fin.coe_ofNat_eq_mod]
  | succ f ih =>
    intro n acc rest g hlen hvalid hg
    obtain ⟨g, rfl⟩ : ∃ k, g = k + 1 := ⟨g - 1, by omega⟩
    cases n with
    | nil => simp [encodeStringLoop, readString, Fin.coe_ofNat_eq_mod]
    | cons b t =>
      simp only [List.length_cons] at hlen
      by_cases hb : b.val < 0x80
      · have henc : encodeStringLoop (f + 1) (b :: t) = encodeAscii b ++ encodeStringLoop f t := by
          simp [encodeStringLoop, hb]
        have hd : decodeRune (b :: t) = (b.val, 1) := by
          simp [decodeRune, firstSize, hb]
        have hne : ¬ b.val = RuneError := by
          unfold RuneError
          omega
        have hval : validLoop f t = true := by
          simpa [validLoop, hd, hne] using hvalid
        rw [henc] at hg
        rw [henc, List.append_assoc, readString_encodeAscii b hb,
          ih t (acc ++ [b]) rest g (by omega) hval]
        · simp
        · have := encodeAscii_length_pos b
          simp only [List.length_append] at hg
          omega
      · have hv : ¬ ((decodeRune (b :: t)).1 = RuneError ∧ (decodeRune (b :: t)).2 = 1) := by
          intro h
          simp [validLoop, h] at hvalid
        rcases decodeRune_multibyte b t (by omega) hv with
          ⟨b1, t1, rfl, h0, h1, h2, h3⟩ | ⟨b1, b2, t2, rfl, h0, h1, h2, h3, h4, h5⟩ |
          ⟨b1, b2, b3, t3, rfl, h0, h1, h2, h3, h4, h5, h6, h7⟩
        · have hd := decodeRune_two b b1 t1 h0 h1 h2 h3
          have hr1 : ¬ (b.val % 32 * 64 + b1.val % 64 = RuneError) := by
            unfold RuneError
            omega
          have hr2 : ¬ (b.val % 32 * 64 + b1.val % 64 = 0x2028
              ∨ b.val % 32 * 64 + b1.val % 64 = 0x2029) := by omega
          have henc : encodeStringLoop (f + 1) (b :: b1 :: t1)
              = [b, b1] ++ encodeStringLoop f t1 := by
            simp [encodeStringLoop, hb, hd, hr1, hr2]
          have hval : validLoop f t1 = true := by
            simpa [validLoop, hd, hr1] using hvalid
          simp only [List.length_cons] at hlen
          rw [henc] at hg
          simp only [List.length_append, List.length_cons, List.length_nil] at hg
          rw [henc]
          simp only [List.cons_append, List.nil_append]
          rw [readString_two b b1 h0 h1 h2 h3, ih t1 _ rest g (by omega) hval (by omega)]
          simp
        · have hd := decodeRune_three b b1 b2 t2 h0 h1 h2 h3 h4 h5
          have hval : validLoop f t2 = true := by
            simp only [validLoop, hd] at hvalid
            split_ifs at hvalid
            simpa using hvalid
          simp only [List.length_cons] at hlen
          by_cases hsep : b.val % 16 * 4096 + b1.val % 64 * 64 + b2.val % 64 = 0x2028
              ∨ b.val % 16 * 4096 + b1.val % 64 * 64 + b2.val % 64 = 0x2029
          · have hr1 : ¬ (b.val % 16 * 4096 + b1.val % 64 * 64 + b2.val % 64 = RuneError) := by
              unfold RuneError
              omega
            have henc : encodeStringLoop (f + 1) (b :: b1 :: b2 :: t2)
                = [0x5C, 0x75, 0x32, 0x30, 0x32,
                    hexDigit ((b.val % 16 * 4096 + b1.val % 64 * 64 + b2.val % 64) % 16)]
                  ++ encodeStringLoop f t2 := by
              simp [encodeStringLoop, hb, hd, hr1, hsep]
            rw [henc] at hg
            simp only [List.length_append, List.length_cons, List.length_nil] at hg
            rw [henc, List.append_assoc, readString_separator _ hsep,
              encodeRune_three b b1 b2 h0 h1 h2 h3 h4 h5,
              ih t2 _ rest g (by omega) hval (by omega)]
            simp
          · have henc : encodeStringLoop (f + 1) (b :: b1 :: b2 :: t2)
                = [b, b1, b2] ++ encodeStringLoop f t2 := by
              simp [encodeStringLoop, hb, hd, hsep]
            rw [henc] at hg
            simp only [List.length_append, List.length_cons, List.length_nil] at hg
            rw [henc]
            simp only [List.cons_append, List.nil_append]
            rw [readString_three b b1 b2 h0 h1 h2 h3 h4 h5,
              ih t2 _ rest g (by omega) hval (by omega)]
            simp
        · have hd := decodeRune_four b b1 b2 b3 t3 h0 h1 h2 h3 h4 h5 h6 h7
          have hval : validLoop f t3 = true := by
            simp only [validLoop, hd] at hvalid
            split_ifs at hvalid
            simpa using hvalid
          have hbig : 0x10000 ≤ b.val % 8 * 262144 + b1.val % 64 * 4096 + b2.val % 64 * 64
              + b3.val % 64 := by
            unfold acceptLo at h2
            unfold acceptHi at h3
            split_ifs at h2 h3 <;> omega
          have hr1 : ¬ (b.val % 8 * 262144 + b1.val % 64 * 4096 + b2.val % 64 * 64
              + b3.val % 64 = RuneError) := by
            unfold RuneError
            omega
          have hr2 : ¬ (b.val % 8 * 262144 + b1.val % 64 * 4096 + b2.val % 64 * 64
              + b3.val % 64 = 0x2028 ∨ b.val % 8 * 262144 + b1.val % 64 * 4096
              + b2.val % 64 * 64 + b3.val % 64 = 0x2029) := by omega
          have henc : encodeStringLoop (f + 1) (b :: b1 :: b2 :: b3 :: t3)
              = [b, b1, b2, b3] ++ encodeStringLoop f t3 := by
            simp [encodeStringLoop, hb, hd, hr1, hr2]
          simp only [List.length_cons] at hlen
          rw [henc] at hg
          simp only [List.length_append, List.length_cons, List.length_nil] at hg
          rw [henc]
          simp only [List.cons_append, List.nil_append]
          rw [readString_four b b1 b2 b3 h0 h1 h2 h3 h4 h5 h6 h7,
            ih t3 _ rest g (by omega) hval (by omega)]
          simp

theorem readString_quoted (n rest : Bytes) (hvalid : validString n = true) (g : Nat)
    (hg : (encodeStringLoop n.length n).length + 1 ≤ g) :
    readString g (encodeStringLoop n.length n ++ 0x22 :: rest) [] = some (n, rest) := by
  have h := readString_encodeStringLoop n.length n [] rest g (le_refl _) hvalid hg
  simpa using h

theorem skipSpace_cons (b : Byte) (rest : Bytes) (hb : isSpace b = false) :
    skipSpace (b :: rest) = b :: rest := by
  simp [skipSpace, hb]

/-- A JSON string value written by the encoder for valid UTF-8 reads back as
the string. -/
theorem readValue_encodeString (n rest : Bytes) (hvalid : validString n = true) (k : Nat) :
    readValue (k + 1) (encodeString n ++ rest) = some (JValue.str n, rest) := by
  have hs := readString_quoted n rest hvalid
    (encodeStringLoop n.length n ++ 0x22 :: rest).length (by simp)
  unfold encodeString
  simp only [List.singleton_append, List.cons_append, List.append_assoc, List.nil_append]
  rw [readValue, skipSpace_cons _ _ (by decide)]
  simp only [hs]
  rfl

/-- The document the encoder writes for a repository with a valid UTF-8 name
reads back as an object with the one member `Name`. -/
theorem readValue_jsonEncode (n : Bytes) (hvalid : validString n = true) (k : Nat) :
    readValue (k + 3) (jsonEncode { Name := n }).1
      = some (JValue.object [(ascii "Name", JValue.str n)], [0x0A]) := by
  have hkey : ∀ rest : Bytes, readString (ascii "Name" ++ 0x22 :: rest).length
      (ascii "Name" ++ 0x22 :: rest) [] = some (ascii "Name", rest) := by
    intro rest
    have he : encodeStringLoop (ascii "Name").length (ascii "Name") = ascii "Name" := by decide
    have h := readString_quoted (ascii "Name") rest (by decide)
      (ascii "Name" ++ 0x22 :: rest).length (by rw [he]; simp)
    rw [he] at h
    exact h
  have hval := readValue_encodeString n [0x7D, 0x0A] hvalid k
  have hdoc : (jsonEncode { Name := n }).1
      = 0x7B :: 0x22 :: (ascii "Name" ++ 0x22 :: 0x3A :: (encodeString n ++ [0x7D, 0x0A])) := by
    simp only [jsonEncode]
    rfl
  rw [hdoc, readValue, skipSpace_cons _ _ (by decide)]
  simp only [Fin.coe_ofNat_eq_mod, Nat.reduceMod, Nat.reduceEqDiff, if_true]
  rw [skipSpace_cons _ _ (by decide)]
  simp only [Fin.coe_ofNat_eq_mod, Nat.reduceMod, Nat.reduceEqDiff, if_false]
  rw [readMembers, skipSpace_cons _ _ (by decide)]
  simp only [Fin.coe_ofNat_eq_mod, Nat.reduceMod, Nat.reduceEqDiff, if_true, hkey]
  rw [skipSpace_cons _ _ (by decide)]
  simp only [Fin.coe_ofNat_eq_mod, Nat.reduceMod, Nat.reduceEqDiff, if_true, hval]
  rfl

/-- Decoding the record the encoder wrote for a valid UTF-8 name gives the name. -/
theorem jsonUnmarshal_jsonEncode (n : Bytes) (hvalid : validString n = true)
    (repo : Repository) :
    jsonUnmarshal (jsonEncode { Name := n }).1 repo = ({ Name := n }, none) := by
  have hfuel : 2 * (jsonEncode { Name := n }).1.length + 2
      = (2 * (jsonEncode { Name := n }).1.length - 1) + 3 := by
    have : 1 ≤ (jsonEncode { Name := n }).1.length := by
      simp [jsonEncode, ascii]
    omega
  have hdoc : readDocument (jsonEncode { Name := n }).1
      = some (JValue.object [(ascii "Name", JValue.str n)]) := by
    unfold readDocument
    rw [hfuel, readValue_jsonEncode n hvalid]
    rfl
  unfold jsonUnmarshal
  rw [hdoc]
  rfl

/-- C1, refuted as stated: creating the repository whose name is the single byte
`0xFF` (not valid UTF-8) in the empty store succeeds, and `GetRepo` of that name
then returns a repository named U+FFFD (the bytes `EF BF BD`), not `0xFF`. -/
theorem CreateRepo_GetRepo_invalid_utf8 :
    (Manager.CreateRepo Store.empty [0xFF]).1 = none ∧
    (Manager.GetRepo (Manager.CreateRepo Store.empty [0xFF]).2 [0xFF]).1
      = (some { Name := [0xEF, 0xBF, 0xBD] }, none) ∧
    (Manager.GetRepo (Manager.CreateRepo Store.empty [0xFF]).2 [0xFF]).1
      ≠ (some { Name := [0xFF] }, none) := by
  decide

/-- C1, amended: for every database and every name `n` that is valid UTF-8,
after `CreateRepo(n)` succeeds `GetRepo(n)` succeeds and returns a repository
whose `Name` is `n`. -/
theorem CreateRepo_GetRepo_roundtrip (db : Store) (n : Bytes)
    (hvalid : validString n = true) (hok : (Manager.CreateRepo db n).1 = none) :
    (Manager.GetRepo (Manager.CreateRepo db n).2 n).1 = (some { Name := n }, none) := by
  have hstate : (Manager.CreateRepo db n).2
      = { repos := db.repos.insert n (jsonEncode { Name := n }).1 } := by
    rw [Manager.CreateRepo_eq] at hok ⊢
    split_ifs at hok ⊢
    rfl
  rw [hstate, Manager.GetRepo_eq]
  simp only [Bucket.Get_insert_self, jsonUnmarshal_jsonEncode n hvalid]

/-- C1, amended, at the empty store and the name "shannon". -/
theorem CreateRepo_GetRepo_roundtrip_witness :
    (Manager.GetRepo (Manager.CreateRepo Store.empty (ascii "shannon")).2 (ascii "shannon")).1
      = (some { Name := ascii "shannon" }, none) :=
  CreateRepo_GetRepo_roundtrip Store.empty (ascii "shannon") (by decide) (by decide)

/-! ## The core manager facade -/

namespace Core

variable {σ ρ μ δ : Type}

/-- C6: `CreateRepo(id)` of the core manager first asks the directory to create
the repository. If that fails with `e`, it returns `e`, and the only call made
is the create: nothing is resolved or indexed. If it succeeds, `CreateRepo` is
`Manager.Index(id)` run on the state the create left: the repository is resolved
once; when the resolution succeeds the repository is indexed once and the
result of the indexing is returned, the state being the one the indexing left;
when the resolution fails its error is returned. No call undoes the create, so
whatever holds of the state after the create and is kept by indexing (such as
"the record of `id` is present") holds after `CreateRepo`, also when it fails. -/
theorem CreateRepo_create_then_index (c : Collaborators σ ρ μ δ) (id : Bytes)
    (w : World σ ρ μ δ) :
    (∀ repo e st, c.CreateRepo id w.state = ((repo, some e), st) →
        Manager.CreateRepo c id w
          = (some e, { state := st, calls := w.calls ++ [Call.CreateRepo id] })) ∧
    (∀ repo st, c.CreateRepo id w.state = ((repo, none), st) →
        Manager.CreateRepo c id w
          = Manager.Index c id { state := st, calls := w.calls ++ [Call.CreateRepo id] } ∧
        (∀ r, c.GetRepo id st = (r, none) →
          Manager.CreateRepo c id w
            = ((c.Index r st).1,
               { state := (c.Index r st).2,
                 calls := w.calls ++ [Call.CreateRepo id, Call.GetRepo id, Call.Index r] })) ∧
        (∀ r e, c.GetRepo id st = (r, some e) →
          Manager.CreateRepo c id w
            = (some e,
               { state := st, calls := w.calls ++ [Call.CreateRepo id, Call.GetRepo id] })) ∧
        (∀ P : σ → Prop, P st → (∀ r s, P s → P (c.Index r s).2) →
          P (Manager.CreateRepo c id w).2.state)) := by
  refine ⟨?_, ?_⟩
  · intro repo e st h
    simp only [Manager.CreateRepo, h]
  · intro repo st h
    have hcr : Manager.CreateRepo c id w
        = Manager.Index c id { state := st, calls := w.calls ++ [Call.CreateRepo id] } := by
      simp only [Manager.CreateRepo, h]
    refine ⟨hcr, ?_, ?_, ?_⟩
    · intro r hr
      rw [hcr]
      simp [Manager.Index, Manager.GetRepo, hr]
    · intro r e hr
      rw [hcr]
      simp [Manager.Index, Manager.GetRepo, hr]
    · intro P hP hkeep
      rw [hcr]
      rcases hr : c.GetRepo id st with ⟨r, _ | e⟩
      · simp only [Manager.Index, Manager.GetRepo, hr]
        exact hkeep r st hP
      · simp only [Manager.Index, Manager.GetRepo, hr]
        exact hP

/-- C6, with the directory of package `manager` and an indexing that always
fails: creating "shannon" in the empty store reports the indexing error after
the create, one resolution and one indexing, and the record of "shannon" is in
the store. -/
theorem CreateRepo_create_then_index_witness :
    Manager.CreateRepo sample (ascii "shannon") { state := Store.empty, calls := [] }
      = (some (Error.other 7),
         { state := run [Op.create (ascii "shannon")],
           calls := [Call.CreateRepo (ascii "shannon"), Call.GetRepo (ascii "shannon"),
             Call.Index (some { Name := ascii "shannon" })] }) :=
  ((CreateRepo_create_then_index sample (ascii "shannon")
      { state := Store.empty, calls := [] }).2 (some { Name := ascii "shannon" })
      (run [Op.create (ascii "shannon")]) (by decide)).2.1
    (some { Name := ascii "shannon" }) (by decide)

/-- C7: each repository operation of the core manager resolves `repoID` with
`GetRepo` on that call. When the resolution fails with `e`, the operation
returns `e` with the zero result, and `GetRepo` is the only call made. When it
succeeds with `r`, the operation calls the matching method of `r` once, on the
unchanged state, and returns its results as they are. -/
theorem facade_forwards (c : Collaborators σ ρ μ δ) (repoID : Bytes) (w : World σ ρ μ δ) :
    (∀ r e, c.GetRepo repoID w.state = (r, some e) →
      Manager.Index c repoID w
        = (some e, { state := w.state, calls := w.calls ++ [Call.GetRepo repoID] }) ∧
      Manager.GetPackageNames c repoID w
        = (([], some e), { state := w.state, calls := w.calls ++ [Call.GetRepo repoID] }) ∧
      (∀ pkgName, Manager.GetPackages c repoID pkgName w
        = (([], some e), { state := w.state, calls := w.calls ++ [Call.GetRepo repoID] })) ∧
      (∀ oldPkg newPkg, Manager.CreateDelta c repoID oldPkg newPkg w
        = (([], some e), { state := w.state, calls := w.calls ++ [Call.GetRepo repoID] })) ∧
      (∀ pkgID deltaPath, Manager.HasDelta c repoID pkgID deltaPath w
        = ((false, some e), { state := w.state, calls := w.calls ++ [Call.GetRepo repoID] })) ∧
      (∀ deltaPath mapping, Manager.AddDelta c repoID deltaPath mapping w
        = (some e, { state := w.state, calls := w.calls ++ [Call.GetRepo repoID] }))) ∧
    (∀ r, c.GetRepo repoID w.state = (r, none) →
      Manager.Index c repoID w
        = ((c.Index r w.state).1,
           { state := (c.Index r w.state).2,
             calls := w.calls ++ [Call.GetRepo repoID, Call.Index r] }) ∧
      Manager.GetPackageNames c repoID w
        = ((c.GetPackageNames r w.state).1,
           { state := (c.GetPackageNames r w.state).2,
             calls := w.calls ++ [Call.GetRepo repoID, Call.GetPackageNames r] }) ∧
      (∀ pkgName, Manager.GetPackages c repoID pkgName w
        = ((c.GetPackages r pkgName w.state).1,
           { state := (c.GetPackages r pkgName w.state).2,
             calls := w.calls ++ [Call.GetRepo repoID, Call.GetPackages r pkgName] })) ∧
      (∀ oldPkg newPkg, Manager.CreateDelta c repoID oldPkg newPkg w
        = ((c.CreateDelta r oldPkg newPkg w.state).1,
           { state := (c.CreateDelta r oldPkg newPkg w.state).2,
             calls := w.calls ++ [Call.GetRepo repoID, Call.CreateDelta r oldPkg newPkg] })) ∧
      (∀ pkgID deltaPath, Manager.HasDelta c repoID pkgID deltaPath w
        = ((c.HasDelta r pkgID deltaPath w.state).1,
           { state := (c.HasDelta r pkgID deltaPath w.state).2,
             calls := w.calls ++ [Call.GetRepo repoID, Call.HasDelta r pkgID deltaPath] })) ∧
      (∀ deltaPath mapping, Manager.AddDelta c repoID deltaPath mapping w
        = ((c.AddDelta r deltaPath mapping w.state).1,
           { state := (c.AddDelta r deltaPath mapping w.state).2,
             calls := w.calls ++ [Call.GetRepo repoID, Call.AddDelta r deltaPath mapping] }))) := by
  refine ⟨?_, ?_⟩
  · intro r e hr
    refine ⟨?_, ?_, ?_, ?_, ?_, ?_⟩
    · simp only [Manager.Index, Manager.GetRepo, hr]
    · simp only [Manager.GetPackageNames, Manager.GetRepo, hr]
    · intro pkgName
      simp only [Manager.GetPackages, Manager.GetRepo, hr]
    · intro oldPkg newPkg
      simp only [Manager.CreateDelta, Manager.GetRepo, hr]
    · intro pkgID deltaPath
      simp only [Manager.HasDelta, Manager.GetRepo, hr]
    · intro deltaPath mapping
      simp only [Manager.AddDelta, Manager.GetRepo, hr]
  · intro r hr
    refine ⟨?_, ?_, ?_, ?_, ?_, ?_⟩
    · simp only [Manager.Index, Manager.GetRepo, hr, List.append_assoc, List.singleton_append]
    · simp only [Manager.GetPackageNames, Manager.GetRepo, hr, List.append_assoc,
        List.singleton_append]
    · intro pkgName
      simp only [Manager.GetPackages, Manager.GetRepo, hr, List.append_assoc,
        List.singleton_append]
    · intro oldPkg newPkg
      simp only [Manager.CreateDelta, Manager.GetRepo, hr, List.append_assoc,
        List.singleton_append]
    · intro pkgID deltaPath
      simp only [Manager.HasDelta, Manager.GetRepo, hr, List.append_assoc,
        List.singleton_append]
    · intro deltaPath mapping
      simp only [Manager.AddDelta, Manager.GetRepo, hr, List.append_assoc,
        List.singleton_append]

/-- C7, with the directory of package `manager`: on the empty store `Index` of
"shannon" returns the resolution error `ErrUnknownResource` after the one call
of `GetRepo`, and once "shannon" exists it returns what the repository's
`Index` returns, after one call of each. -/
theorem facade_forwards_witness :
    Manager.Index sample (ascii "shannon") { state := Store.empty, calls := [] }
      = (some Error.ErrUnknownResource,
         { state := Store.empty, calls := [Call.GetRepo (ascii "shannon")] }) ∧
    Manager.Index sample (ascii "shannon")
        { state := run [Op.create (ascii "shannon")], calls := [] }
      = (some (Error.other 7),
         { state := run [Op.create (ascii "shannon")],
           calls := [Call.GetRepo (ascii "shannon"),
             Call.Index (some { Name := ascii "shannon" })] }) :=
  ⟨((facade_forwards sample (ascii "shannon") { state := Store.empty, calls := [] }).1
      none Error.ErrUnknownResource (by decide)).1,
   ((facade_forwards sample (ascii "shannon")
      { state := run [Op.create (ascii "shannon")], calls := [] }).2
      (some { Name := ascii "shannon" }) (by decide)).1⟩

/-- C8: `AddPackages` of the core manager never reports success. It returns the
resolution error when `repoID` does not resolve and the error "not yet ported"
otherwise; the state is the one before the call and the only call made is the
resolution, so nothing is imported, changed or indexed. -/
theorem AddPackages_unavailable (c : Collaborators σ ρ μ δ) (repoID : Bytes)
    (packages : List Bytes) (w : World σ ρ μ δ) :
    (Manager.AddPackages c repoID packages w).1 ≠ none ∧
    (∀ r e, c.GetRepo repoID w.state = (r, some e) →
      (Manager.AddPackages c repoID packages w).1 = some e) ∧
    (∀ r, c.GetRepo repoID w.state = (r, none) →
      (Manager.AddPackages c repoID packages w).1
        = some (Error.errorString (ascii "not yet ported"))) ∧
    (Manager.AddPackages c repoID packages w).2
      = { state := w.state, calls := w.calls ++ [Call.GetRepo repoID] } := by
  rcases hr : c.GetRepo repoID w.state with ⟨r, _ | e⟩ <;>
    simp [Manager.AddPackages, Manager.GetRepo, hr]

/-- C8, with the directory of package `manager`: adding no package to the
existing repository "shannon" gives "not yet ported". -/
theorem AddPackages_unavailable_witness :
    (Manager.AddPackages sample (ascii "shannon") []
        { state := run [Op.create (ascii "shannon")], calls := [] }).1
      = some (Error.errorString (ascii "not yet ported")) :=
  (AddPackages_unavailable sample (ascii "shannon") []
    { state := run [Op.create (ascii "shannon")], calls := [] }).2.2.1
    (some { Name := ascii "shannon" }) (by decide)

end Core

/-! ## The client -/

namespace Libferry

/-- C9, refuted as stated: a response of unknown length (`ContentLength = -1`)
whose body is the envelope with `error = true` and `errorString = "unknown
resource"` makes `IndexRepo` and `CreateRepo` return nil. -/
theorem getBasicResponse_unknown_length_swallows :
    Response.decode unknownResourceBody
        { Error := false, ErrorString := [] }
      = ({ Error := true, ErrorString := ascii "unknown resource" }, none) ∧
    (Client.IndexRepo (Client.answering { ContentLength := -1, Body := unknownResourceBody })
        (ascii "shannon")).err = none ∧
    (Client.CreateRepo (Client.answering { ContentLength := -1, Body := unknownResourceBody })
        (ascii "shannon")).err = none := by
  decide

/-- C9, amended: when the response has a positive `ContentLength` and its body
decodes to the envelope `env`, `getBasicResponse` returns the error with message
`env.ErrorString` if `env.Error` is set, and returns nil exactly when it is not;
`CreateRepo` and `IndexRepo` return what `getBasicResponse` returns for their
URL and a zero `Response`. -/
theorem getBasicResponse_reports_envelope (c : Client) (url : Bytes) (outT : Response)
    (resp : HttpResponse) (env : Response)
    (hget : c.client url = Except.ok resp) (hlen : resp.ContentLength > 0)
    (henv : Response.decode resp.Body outT = (env, none)) :
    (env.Error = true →
      (c.getBasicResponse url outT).err = some (Binman.Error.errorString env.ErrorString)) ∧
    ((c.getBasicResponse url outT).err = none ↔ env.Error = false) ∧
    (∀ id, (c.CreateRepo id).err
      = (c.getBasicResponse (c.formURI (ascii "/api/v1/create_repo/" ++ id))
          { Error := false, ErrorString := [] }).err) ∧
    (∀ id, (c.IndexRepo id).err
      = (c.getBasicResponse (c.formURI (ascii "/api/v1/index_repo/" ++ id))
          { Error := false, ErrorString := [] }).err) := by
  have hres : (c.getBasicResponse url outT).err
      = if env.Error then some (Binman.Error.errorString env.ErrorString) else none := by
    simp only [Client.getBasicResponse, hget, hlen, if_true, henv]
    cases env.Error <;> rfl
  refine ⟨?_, ?_, fun _ => rfl, fun _ => rfl⟩
  · intro h
    rw [hres, h]
    rfl
  · rw [hres]
    cases env.Error <;> simp

/-- C9, amended, at a response of 48 bytes carrying the "unknown resource"
envelope, requested at the URL of `IndexRepo("shannon")`: `getBasicResponse`
returns the error with that message. -/
theorem getBasicResponse_reports_envelope_witness :
    (Client.getBasicResponse (Client.answering { ContentLength := 48, Body := unknownResourceBody })
        (ascii "http://localhost.localdomain:0//api/v1/index_repo/shannon")
        { Error := false, ErrorString := [] }).err
      = some (Binman.Error.errorString (ascii "unknown resource")) :=
  (getBasicResponse_reports_envelope
    (Client.answering { ContentLength := 48, Body := unknownResourceBody })
    (ascii "http://localhost.localdomain:0//api/v1/index_repo/shannon")
    { Error := false, ErrorString := [] }
    { ContentLength := 48, Body := unknownResourceBody }
    { Error := true, ErrorString := ascii "unknown resource" }
    rfl (by decide) (by decide)).1 rfl

/-- The URL each client method requests: `formURI` already ends the host part
with a slash, and `CreateRepo` and `IndexRepo` pass a part that starts with one. -/
theorem Client.requested_urls (c : Client) (id : Bytes) :
    (c.CreateRepo id).requested
      = [ascii "http://localhost.localdomain:0//api/v1/create_repo/" ++ id] ∧
    (c.IndexRepo id).requested
      = [ascii "http://localhost.localdomain:0//api/v1/index_repo/" ++ id] ∧
    c.GetVersion.requested = [ascii "http://localhost.localdomain:0/api/v1/version"] := by
  have hreq : ∀ url outT, (c.getBasicResponse url outT).requested = [url] := by
    intro url outT
    unfold Client.getBasicResponse
    split
    · rfl
    · simp only
      split
      · rfl
      · split <;> rfl
  refine ⟨?_, ?_, ?_⟩
  · simp only [Client.CreateRepo, hreq, Client.formURI, ← List.append_assoc]
    rfl
  · simp only [Client.IndexRepo, hreq, Client.formURI, ← List.append_assoc]
    rfl
  · unfold Client.GetVersion
    simp only
    split
    · rfl
    · split <;> rfl

/-- C10, at `id = "shannon"`: the URL `CreateRepo` requests has two slashes
between the host and `api`, unlike the documented path and unlike `GetVersion`;
so has the URL of `IndexRepo`. -/
theorem Client.CreateRepo_requests_double_slash :
    (Client.CreateRepo (Client.answering { ContentLength := 0, Body := [] })
        (ascii "shannon")).requested
      = [ascii "http://localhost.localdomain:0//api/v1/create_repo/shannon"] ∧
    (Client.IndexRepo (Client.answering { ContentLength := 0, Body := [] })
        (ascii "shannon")).requested
      = [ascii "http://localhost.localdomain:0//api/v1/index_repo/shannon"] ∧
    (Client.GetVersion (Client.answering { ContentLength := 0, Body := [] })).requested
      = [ascii "http://localhost.localdomain:0/api/v1/version"] ∧
    ascii "http://localhost.localdomain:0//api/v1/create_repo/shannon"
      ≠ ascii "http://localhost.localdomain:0/" ++ ascii "api/v1/create_repo/" ++ ascii "shannon" := by
  decide

end Libferry

end Binman
